import Mathlib

/-!
Verification of the Jarvis 2.0 tiered-memory and priority-engine core.

The Python sources under `src/` are shallowly embedded here:

* text files (MEMORY.md, archive partitions) are `List Char`, and the
  Python string operations used by the code (`str.split`, `str.strip`,
  `str.replace`, `str.startswith`, `"x".join`) are reimplemented with
  their exact semantics over `List Char`;
* `datetime` values are integers (seconds on the proleptic Gregorian
  calendar); `datetime.fromisoformat` and `strptime("%Y-%m-%d")` are
  modelled for the timestamp shapes this system reads and writes
  (`YYYY-MM-DD`, optionally followed by a one-character separator and
  `HH:MM[:SS]`; fractional seconds and time zones are outside the model);
* filesystem state is passed explicitly (`Store` below), and the I/O
  failures the code tests for are modelled by boolean success flags
  (`appendOk` for `ArchiveRepository.append_entries`, `memOk` for the
  MEMORY.md rewrite);
* Python floats in the priority engine are modelled as exact rationals,
  and Python `round` as round-half-to-even.
-/

namespace Jarvis

/-- Character strings as plain character lists (Python `str`). -/
abbrev Str := List Char

/-- String literal to `Str` conversion. -/
def str (s : String) : Str := s.toList

/-- The whitespace characters of Python `str.strip` / `str.split()`
(ASCII subset, which is all this data ever contains). -/
def isPySpace (c : Char) : Bool :=
  c = ' ' || c = '\t' || c = '\n' || c = '\r' || c = '\x0b' || c = '\x0c'

/-- Python `s.strip()`: drop leading and trailing whitespace. -/
def pyStrip (s : Str) : Str :=
  ((s.dropWhile isPySpace).reverse.dropWhile isPySpace).reverse

/-- Python `s.split(sep)` for a one-character separator: split at every
occurrence, keeping empty segments (`"".split(c) == [""]`). -/
def pySplit (c : Char) : Str → List Str
  | [] => [[]]
  | ch :: rest =>
    match pySplit c rest with
    | [] => [[]]
    | l :: ls => if ch = c then [] :: l :: ls else (ch :: l) :: ls

/-- Python `sep.join(parts)` for a one-character separator. -/
def pyJoin (c : Char) (parts : List Str) : Str :=
  List.intercalate [c] parts

/-- Fuelled worker for `replaceAll`; every step consumes one unit of
fuel and at least one character, so `s.length` fuel always suffices. -/
def replaceAllFuel (pat : Str) : Nat → Str → Str
  | 0, s => s
  | _ + 1, [] => []
  | n + 1, c :: rest =>
    if pat ≠ [] ∧ pat.isPrefixOf (c :: rest) then
      replaceAllFuel pat n ((c :: rest).drop pat.length)
    else
      c :: replaceAllFuel pat n rest

/-- Python `s.replace(pat, "")` for a non-empty pattern: scan left to
right, deleting each non-overlapping occurrence and continuing after it. -/
def replaceAll (pat s : Str) : Str := replaceAllFuel pat s.length s

/-- Python `s.split()[0]` guarded by the surrounding `try`: the first
whitespace-delimited token, or `none` when there is no token. -/
def firstToken? (s : Str) : Option Str :=
  match s.dropWhile isPySpace with
  | [] => none
  | t => some (t.takeWhile (fun c => !isPySpace c))

/-! ### Timestamps

`datetime` values are seconds on the proleptic Gregorian calendar,
counted from year 1 (any affine encoding with real day lengths gives the
same orderings and day differences, which is all the code observes). -/

/-- Value of an ASCII digit, `none` otherwise. -/
def digit? (c : Char) : Option Nat :=
  if c.isDigit then some (c.toNat - 48) else none

/-- Whether a Gregorian year is a leap year. -/
def isLeapYear (y : Nat) : Bool :=
  y % 4 = 0 && (y % 100 ≠ 0 || y % 400 = 0)

/-- Number of days in a month (`datetime` validates against this). -/
def daysInMonth (y m : Nat) : Nat :=
  if m = 2 then (if isLeapYear y then 29 else 28)
  else if m = 4 || m = 6 || m = 9 || m = 11 then 30
  else 31

/-- Days in the full years before year `y` (counting from year 1). -/
def daysBeforeYear (y : Nat) : Nat :=
  let n := y - 1
  365 * n + n / 4 - n / 100 + n / 400

/-- Days in the full months of year `y` before month `m`. -/
def daysBeforeMonth (y m : Nat) : Nat :=
  (([31, 28, 31, 30, 31, 30, 31, 31, 30, 31, 30].take (m - 1)).sum)
    + (if 2 < m && isLeapYear y then 1 else 0)

/-- Seconds corresponding to a calendar date plus time of day. -/
def civilSecs (y m d h mi s : Nat) : Int :=
  ((daysBeforeYear y + daysBeforeMonth y m + (d - 1)) * 86400
    + h * 3600 + mi * 60 + s : Nat)

/-- Parse `HH:MM` or `HH:MM:SS` with `datetime`'s range checks. -/
def parseTime? : Str → Option (Nat × Nat × Nat)
  | [h1, h2, ':', m1, m2] => do
    let h := (← digit? h1) * 10 + (← digit? h2)
    let mi := (← digit? m1) * 10 + (← digit? m2)
    if h ≤ 23 && mi ≤ 59 then some (h, mi, 0) else none
  | [h1, h2, ':', m1, m2, ':', s1, s2] => do
    let h := (← digit? h1) * 10 + (← digit? h2)
    let mi := (← digit? m1) * 10 + (← digit? m2)
    let s := (← digit? s1) * 10 + (← digit? s2)
    if h ≤ 23 && mi ≤ 59 && s ≤ 59 then some (h, mi, s) else none
  | _ => none

/-- Read four decimal digits from the head of a string. -/
def parse4? : Str → Option (Nat × Str)
  | a :: b :: c :: d :: rest => do
    let v := ((← digit? a) * 10 + (← digit? b)) * 100
      + (← digit? c) * 10 + (← digit? d)
    some (v, rest)
  | _ => none

/-- Read two decimal digits from the head of a string. -/
def parse2? : Str → Option (Nat × Str)
  | a :: b :: rest => do
    let v := (← digit? a) * 10 + (← digit? b)
    some (v, rest)
  | _ => none

/-- Require a literal dash at the head of a string. -/
def expectDash : Str → Option Str
  | '-' :: rest => some rest
  | _ => none

/-- Model of `datetime.fromisoformat` for the shapes this system reads
and writes: `YYYY-MM-DD`, optionally followed by a one-character
separator and `HH:MM[:SS]` (fractional seconds and offsets are outside
the model). Returns the instant in seconds. -/
def fromisoformat? (s : Str) : Option Int := do
  let (y, r1) ← parse4? s
  let r2 ← expectDash r1
  let (m, r3) ← parse2? r2
  let r4 ← expectDash r3
  let (d, r5) ← parse2? r4
  if 1 ≤ y && 1 ≤ m && m ≤ 12 && 1 ≤ d && d ≤ daysInMonth y m then
    match r5 with
    | [] => some (civilSecs y m d 0 0 0)
    | _sep :: timePart => do
      let (h, mi, sec) ← parseTime? timePart
      some (civilSecs y m d h mi sec)
  else none

/-- Model of `datetime.strptime(s, "%Y-%m-%d")` for the zero-padded
dates this system writes: exactly `YYYY-MM-DD`, validated. -/
def strptimeYmd? : Str → Option Int
  | [y1, y2, y3, y4, '-', m1, m2, '-', d1, d2] => do
    let y := ((← digit? y1) * 10 + (← digit? y2)) * 100
      + (← digit? y3) * 10 + (← digit? y4)
    let m := (← digit? m1) * 10 + (← digit? m2)
    let d := (← digit? d1) * 10 + (← digit? d2)
    if 1 ≤ y && 1 ≤ m && m ≤ 12 && 1 ≤ d && d ≤ daysInMonth y m then
      some (civilSecs y m d 0 0 0)
    else none
  | _ => none

/-- Lexicographic `<` on Python strings (by code point). -/
def pyStrLt : Str → Str → Bool
  | [], [] => false
  | [], _ :: _ => true
  | _ :: _, [] => false
  | a :: as, b :: bs =>
    if a.val < b.val then true
    else if b.val < a.val then false
    else pyStrLt as bs

/-! ### Memory entries (`ArchiveService` helpers) -/

/-- A parsed memory entry (`{"timestamp": ..., "category": ..., "content": ...}`). -/
structure MemEntry where
  timestamp : Str
  category : Str
  content : Str
deriving DecidableEq, Repr

/-- One iteration of the loop in `ArchiveService._parse_memory_entries`:
strip the line, require the `* [` bullet, split on `]`, and take the
three fields when at least three parts are present. -/
def parseEntryLine (raw : Str) : Option MemEntry :=
  let line := pyStrip raw
  if (str "* [").isPrefixOf line then
    let parts := pySplit ']' line
    if 3 ≤ parts.length then
      some { timestamp := pyStrip (replaceAll (str "* [") (parts.getD 0 []))
             category := pyStrip (replaceAll (str "[") (parts.getD 1 []))
             content := pyStrip (pyJoin ']' (parts.drop 2)) }
    else none
  else none

/-- `ArchiveService._parse_memory_entries`. -/
def parse_memory_entries (content : Str) : List MemEntry :=
  (pySplit '\n' content).filterMap parseEntryLine

/-- The canonical bullet line `* [timestamp] [category] content`
(used identically by `ArchiveService._format_entries_to_memory` and
`ArchiveRepository.append_entries`). -/
def fmtLine (e : MemEntry) : Str :=
  str "* [" ++ e.timestamp ++ str "] [" ++ e.category ++ str "] " ++ e.content

/-- `ArchiveService._format_entries_to_memory`. -/
def format_entries_to_memory (entries : List MemEntry) : Str :=
  if entries = [] then [] else pyJoin '\n' (entries.map fmtLine) ++ ['\n']

/-- `ArchiveService._parse_timestamp`: `datetime.fromisoformat`, falling
back to `datetime.now()` (the `now` argument) when parsing fails. -/
def parse_timestamp (now : Int) (ts : Str) : Int :=
  (fromisoformat? ts).getD now

/-- `ArchiveService._group_by_month` key: first whitespace token of the
timestamp, truncated to `YYYY-MM`; a failure (no token) is caught and
the entry skipped. -/
def monthKey? (ts : Str) : Option Str :=
  (firstToken? ts).map (List.take 7)

/-- Append an entry to its month bucket, preserving dict insertion
order; a new key goes at the end. -/
def addToGroup (gs : List (Str × List MemEntry)) (k : Str) (e : MemEntry) :
    List (Str × List MemEntry) :=
  if gs.any (fun g => g.1 = k) then
    gs.map (fun g => if g.1 = k then (g.1, g.2 ++ [e]) else g)
  else gs ++ [(k, [e])]

/-- `ArchiveService._group_by_month`. -/
def group_by_month (entries : List MemEntry) : List (Str × List MemEntry) :=
  entries.foldl
    (fun gs e =>
      match monthKey? e.timestamp with
      | none => gs
      | some k => addToGroup gs k e)
    []

/-! ### Filesystem state and the archival service -/

/-- The files the archival service touches. `memory` is the content of
`MEMORY.md` (`MemoryRepository.read` returns `""` when the file is
missing, so no separate missing state is needed); `partitions` maps the
`YYYY-MM` archive identifiers to file contents; `indexCounts` is the
per-partition entry count recorded by `ArchiveRepository.update_index`. -/
structure Store where
  memory : Str
  partitions : List (Str × Str)
  indexCounts : List (Str × Nat)
deriving DecidableEq, Repr

/-- `ArchiveRepository.read`-style lookup: `none` when the file is missing. -/
def lookupPartition (id : Str) (parts : List (Str × Str)) : Option Str :=
  (parts.find? (fun p => p.1 = id)).map Prod.snd

/-- Open-for-append semantics of `ArchiveRepository.write`: create the
file on first use, otherwise append. -/
def appendPartition (id : Str) (text : Str) (parts : List (Str × Str)) :
    List (Str × Str) :=
  if parts.any (fun p => p.1 = id) then
    parts.map (fun p => if p.1 = id then (p.1, p.2 ++ text) else p)
  else parts ++ [(id, text)]

/-- Upsert into the archive index (`ArchiveRepository.update_index`). -/
def upsertIndex (id : Str) (n : Nat) (idx : List (Str × Nat)) :
    List (Str × Nat) :=
  if idx.any (fun p => p.1 = id) then
    idx.map (fun p => if p.1 = id then (p.1, n) else p)
  else idx ++ [(id, n)]

/-- The text `ArchiveRepository.append_entries` appends: each entry as a
canonical bullet line terminated by a newline, concatenated. -/
def appendEntriesText (entries : List MemEntry) : Str :=
  (entries.map (fun e => fmtLine e ++ ['\n'])).flatten

/-- Result record of `archive_old_entries` (the keys of the Python
result dict; early returns leave the remaining fields at defaults). -/
structure ArchiveResult where
  status : Str
  archivedCount : Nat := 0
  recentCount : Nat := 0
  filesCreated : List Str := []
  memoryUpdated : Bool := false
deriving DecidableEq, Repr

/-- The per-group loop of `ArchiveService.archive_old_entries` step 4:
append each month group to its partition (`appendOk` says whether the
filesystem append succeeds; `append_entries` returns `False` on
failure), update the index and record the created file only on success,
and continue either way. -/
def runGroups (appendOk : Str → Bool) :
    List (Str × List MemEntry) → Store → Store × List Str
  | [], st => (st, [])
  | (id, es) :: rest, st =>
    if appendOk id then
      let st' : Store :=
        { st with
          partitions := appendPartition id (appendEntriesText es) st.partitions
          indexCounts := upsertIndex id es.length st.indexCounts }
      let (st'', files) := runGroups appendOk rest st'
      (st'', (id ++ str ".md") :: files)
    else runGroups appendOk rest st

/-- The entries `archive_old_entries` treats as old
(`_parse_timestamp(e) < cutoff`). -/
def archiveOld (content : Str) (now : Int) (days : Nat) : List MemEntry :=
  (parse_memory_entries content).filter
    (fun e => parse_timestamp now e.timestamp < now - days * 86400)

/-- The entries `archive_old_entries` keeps
(`_parse_timestamp(e) >= cutoff`). -/
def archiveRecent (content : Str) (now : Int) (days : Nat) : List MemEntry :=
  (parse_memory_entries content).filter
    (fun e => !(parse_timestamp now e.timestamp < now - days * 86400))

/-- `ArchiveService.archive_old_entries`. `appendOk` models per-file
success of the partition appends, `memOk` success of the MEMORY.md
rewrite, `now` is `datetime.now()`. -/
def archive_old_entries (appendOk : Str → Bool) (memOk : Bool)
    (now : Int) (days : Nat) (st : Store) : Store × ArchiveResult :=
  if st.memory = [] then
    (st, { status := str "OK" })
  else
    let old := archiveOld st.memory now days
    let recent := archiveRecent st.memory now days
    if old = [] then
      (st, { status := str "OK" })
    else
      let (st1, files) := runGroups appendOk (group_by_month old) st
      let st2 :=
        if memOk then
          { st1 with memory := str "# MEMORY\n\n" ++ format_entries_to_memory recent }
        else st1
      (st2,
        { status := str "SUCCESS"
          archivedCount := old.length
          recentCount := recent.length
          filesCreated := files
          memoryUpdated := memOk })

/-- Result record of `restore_from_archive`. -/
structure RestoreResult where
  status : Str
  restoredCount : Nat := 0
  totalEntries : Nat := 0
deriving DecidableEq, Repr

/-- Stable insertion of `a` into a sorted list: `a` goes before the
first strictly greater element, hence after any equal keys. -/
def insertByTs (a : MemEntry) : List MemEntry → List MemEntry
  | [] => [a]
  | b :: bs =>
    if pyStrLt a.timestamp b.timestamp then a :: b :: bs
    else b :: insertByTs a bs

/-- `merged_entries.sort(key=lambda e: e["timestamp"])`: Python's stable
sort by the timestamp string, modelled by stable insertion sort (equal
results for any stable algorithm under this total key order). -/
def sortByTimestamp (es : List MemEntry) : List MemEntry :=
  es.foldl (fun acc e => insertByTs e acc) []

/-- `ArchiveService.restore_from_archive`: read the partition (error if
missing or empty), merge with the current store, sort by timestamp, and
rewrite MEMORY.md (`memOk` models write success). -/
def restore_from_archive (memOk : Bool) (st : Store) (id : Str) :
    Store × RestoreResult :=
  match lookupPartition id st.partitions with
  | none => (st, { status := str "ERROR" })
  | some c =>
    if c = [] then (st, { status := str "ERROR" })
    else
      let archived := parse_memory_entries c
      let current := parse_memory_entries st.memory
      let merged := sortByTimestamp (current ++ archived)
      if memOk then
        ({ st with memory := str "# MEMORY\n\n" ++ format_entries_to_memory merged },
          { status := str "SUCCESS"
            restoredCount := archived.length
            totalEntries := merged.length })
      else (st, { status := str "ERROR" })

/-! ### MemoryRepository / MemoryManager write and parse paths -/

/-- An entry as returned by `MemoryRepository.parse_entries`
(`{"date": ..., "content": ...}`). -/
structure RepoEntry where
  date : Str
  content : Str
deriving DecidableEq, Repr

/-- `MemoryRepository.write`: prepend a newline and a `* [date]` bullet
(date is `now.strftime("%Y-%m-%d")`), create the file with the
`# MEMORY` header if missing, then append. Returns the new file
content. -/
def memory_repo_write (file : Option Str) (dateStr : Str) (content : Str) : Str :=
  (file.getD (str "# MEMORY\n\n")) ++ ('\n' :: (str "* [" ++ dateStr ++ str "] " ++ content))

/-- `MemoryManager.write_entry`: reject empty/whitespace content, format
the canonical bullet, and hand it to `MemoryRepository.write` with a
trailing newline. `nowTs` is the default timestamp
(`"%Y-%m-%d %H:%M:%S"`), `nowDate` the repository's own date stamp.
Returns the new file content and the timestamp, or the `ValueError`
message. -/
def write_entry (file : Option Str) (category content : Str)
    (timestamp : Option Str) (nowTs nowDate : Str) : Except Str (Str × Str) :=
  if content = [] || pyStrip content = [] then
    .error (str "Entry content cannot be empty")
  else
    let ts := timestamp.getD nowTs
    let entry := str "* [" ++ ts ++ str "] [" ++ category ++ str "] " ++ content
    .ok (memory_repo_write file nowDate (entry ++ ['\n']), ts)

/-- Match `\d{4}-\d{2}-\d{2}` at the head of a string, returning the
matched date and the rest. -/
def matchYmd : Str → Option (Str × Str)
  | y1 :: y2 :: y3 :: y4 :: '-' :: m1 :: m2 :: '-' :: d1 :: d2 :: rest =>
    if [y1, y2, y3, y4, m1, m2, d1, d2].all Char.isDigit then
      some ([y1, y2, y3, y4, '-', m1, m2, '-', d1, d2], rest)
    else none
  | _ => none

/-- One iteration of `MemoryRepository.parse_entries`: strip the line,
require a leading `*`, then match
`\*\s*\[(\d{4}-\d{2}-\d{2})\]\s*(.+)` from the start. -/
def parseRepoLine (raw : Str) : Option RepoEntry :=
  match pyStrip raw with
  | '*' :: rest =>
    match rest.dropWhile isPySpace with
    | '[' :: r1 =>
      match matchYmd r1 with
      | some (d, ']' :: r2) =>
        match r2.dropWhile isPySpace with
        | [] => none
        | body => some { date := d, content := body }
      | _ => none
    | _ => none
  | _ => none

/-- `MemoryRepository.parse_entries`, applied to file content. -/
def repo_parse_entries (content : Str) : List RepoEntry :=
  (pySplit '\n' content).filterMap parseRepoLine

/-! ### CompressionService.tier_entries -/

/-- `CompressionService.tier_entries`: classify entries into
`(hot, warm, cold)` by the `date` field. `entry_date > now - preserve
days` is Hot (strict), `> now - warm days` is Warm, the rest Cold;
a date that fails to parse goes to Warm. `cold` (the `cold_days`
argument) is accepted and unused, as in the source. -/
def tier_entries (now : Int) (preserve warm cold : Nat) :
    List RepoEntry → List RepoEntry × List RepoEntry × List RepoEntry
  | [] => ([], [], [])
  | e :: rest =>
    let (h, w, c) := tier_entries now preserve warm cold rest
    match strptimeYmd? e.date with
    | none => (h, e :: w, c)
    | some d =>
      if now - preserve * 86400 < d then (e :: h, w, c)
      else if now - warm * 86400 < d then (h, e :: w, c)
      else (h, w, e :: c)

/-! ### The JARVIS priority engine

Python floats are modelled as exact rationals; `round` is Python's
round-half-to-even. -/

/-- The three execution modes. -/
inductive DecisionType
  | autonomous
  | suggest
  | interrupt
deriving DecidableEq, Repr

/-- The `Priority` dataclass. -/
structure Priority where
  task : String
  level : Int
  category : String
  confidence : Rat
  rationale : String
  decision_type : DecisionType
deriving DecidableEq, Repr

/-- `Priority.__post_init__`: overwrite `decision_type` from `level`. -/
def post_init (p : Priority) : Priority :=
  { p with
    decision_type :=
      if p.level ≤ 4 then .autonomous
      else if p.level ≤ 9 then .suggest
      else .interrupt }

/-- Constructing a `Priority`: dataclass field assignment followed by
`__post_init__`. -/
def mkPriority (task : String) (level : Int) (category : String)
    (confidence : Rat) (rationale : String) (dt : DecisionType) : Priority :=
  post_init
    { task := task, level := level, category := category
      confidence := confidence, rationale := rationale, decision_type := dt }

/-- `PriorityEvaluator.PRIORITY_MATRIX`. -/
def PRIORITY_MATRIX : List (String × Nat) :=
  [("log_rotation", 2), ("duplicate_removal", 2), ("memory_compression", 5),
   ("sentinel_check", 6), ("system_optimization", 5), ("error_recovery", 8),
   ("security_alert", 10), ("resource_exhaustion", 10), ("user_input", 7)]

/-- `self.PRIORITY_MATRIX.get(task, 5)`. -/
def matrixGet (task : String) : Nat :=
  ((PRIORITY_MATRIX.find? (fun p => p.1 = task)).map Prod.snd).getD 5

/-- `self.priority_adjustments.get(task, 0.0)`. -/
def adjGet (adjustments : List (String × Rat)) (task : String) : Rat :=
  ((adjustments.find? (fun p => p.1 = task)).map Prod.snd).getD 0

/-- Python `round` on our exact-rational model of floats:
round half to even. -/
def pyRound (q : Rat) : Int :=
  if q - ⌊q⌋ < 1/2 then ⌊q⌋
  else if 1/2 < q - ⌊q⌋ then ⌊q⌋ + 1
  else if ⌊q⌋ % 2 = 0 then ⌊q⌋ else ⌊q⌋ + 1

/-- One-decimal rendering used for the learned-adjustment part of the
rationale (abbreviates Python's `%+.1f`). -/
def fmtAdj (q : Rat) : String :=
  let n := pyRound (q * 10)
  (if n < 0 then "-" else "+") ++ toString (n.natAbs / 10) ++ "." ++ toString (n.natAbs % 10)

/-- `PriorityEvaluator._build_rationale`. -/
def build_rationale (base : Nat) (urgency impact : Int) (blocked : Nat)
    (adjustment : Rat) : String :=
  String.intercalate " | "
    (["Base: " ++ toString base]
      ++ (if 5 < urgency then ["Urgent (+" ++ toString (urgency - 5) ++ ")"] else [])
      ++ (if 5 < impact then ["High Impact (+" ++ toString (impact - 5) ++ ")"] else [])
      ++ (if 0 < blocked then ["Blocks " ++ toString blocked ++ " tasks"] else [])
      ++ (if adjustment ≠ 0 then ["Learned adjustment (" ++ fmtAdj adjustment ++ ")"] else []))

/-- `PriorityEvaluator.evaluate`, with the current adjustment table as
explicit state. -/
def evaluate (adjustments : List (String × Rat)) (task category : String)
    (urgency impact : Int) (blocked_count : Nat) : Priority :=
  let base := matrixGet task
  let adjustment := adjGet adjustments task
  let priority : Rat :=
    base + (urgency - 5) * (3/10) + (impact - 5) * (1/5)
      + blocked_count * (1/2) + adjustment
  let level : Int := max 1 (min 10 (pyRound priority))
  let confidence : Rat := 7/10 + (3/10) * (min impact urgency) / 10
  mkPriority task level category confidence
    (build_rationale base urgency impact blocked_count adjustment) .autonomous

/-- The `FeedbackEntry` dataclass. -/
structure FeedbackEntry where
  task : String
  priority_level : Int
  decision_type : String
  user_action : String
  timestamp : String
  adjustment : Rat := 0
deriving DecidableEq, Repr

/-- The mutable state of `PriorityEvaluator`: feedback history and the
learned adjustment table. -/
structure EvalState where
  feedback_history : List FeedbackEntry := []
  priority_adjustments : List (String × Rat) := []
deriving DecidableEq, Repr

/-- Upsert an adjustment value, keeping dict insertion order. -/
def upsertAdj (task : String) (v : Rat) (adjustments : List (String × Rat)) :
    List (String × Rat) :=
  if adjustments.any (fun p => p.1 = task) then
    adjustments.map (fun p => if p.1 = task then (p.1, v) else p)
  else adjustments ++ [(task, v)]

/-- `PriorityEvaluator.record_feedback`: append the feedback entry,
compute the delta from `(user_action, decision_type)`, add it to the
task's adjustment (initialised to 0) and clamp to `[-1, 1]`. Returns
the new state and the delta. -/
def record_feedback (st : EvalState) (nowIso : String) (task : String)
    (priority_level : Int) (decision_type user_action : String) :
    EvalState × Rat :=
  let entry : FeedbackEntry :=
    { task := task, priority_level := priority_level
      decision_type := decision_type, user_action := user_action
      timestamp := nowIso }
  let delta : Rat :=
    if user_action = "rejected" ∧ decision_type = "suggest" then -3/10
    else if user_action = "accepted" ∧ decision_type = "suggest" then 1/10
    else if user_action = "ignored" then -1/2
    else 0
  let cur := adjGet st.priority_adjustments task
  let clamped := max (-1) (min 1 (cur + delta))
  ({ feedback_history := st.feedback_history ++ [entry]
     priority_adjustments := upsertAdj task clamped st.priority_adjustments },
   delta)

/-- A `record_feedback` call's arguments
`(now, task, priority_level, decision_type, user_action)`. -/
structure FeedbackCall where
  nowIso : String
  task : String
  priority_level : Int
  decision_type : String
  user_action : String

/-- Run a sequence of `record_feedback` calls. -/
def runFeedback (st : EvalState) (calls : List FeedbackCall) : EvalState :=
  calls.foldl
    (fun s c => (record_feedback s c.nowIso c.task c.priority_level c.decision_type c.user_action).1)
    st

/-! ### Structure lemmas for the Python string operations -/

theorem pySplit_ne_nil (c : Char) (s : Str) : pySplit c s ≠ [] := by
  cases s with
  | nil => simp [pySplit]
  | cons ch rest =>
    rw [pySplit]
    rcases h : pySplit c rest with _ | ⟨l, ls⟩
    · simp
    · by_cases hc : ch = c <;> simp [hc]

/-- Glue two split results at the seam (the shape of splitting an
append). -/
def glueSplit : List Str → List Str → List Str
  | [], bs => bs
  | [a], bs => (a ++ bs.headD []) :: bs.tail
  | a :: a' :: as, bs => a :: glueSplit (a' :: as) bs

theorem pySplit_append (c : Char) (xs ys : Str) :
    pySplit c (xs ++ ys) = glueSplit (pySplit c xs) (pySplit c ys) := by
  rcases hy : pySplit c ys with _ | ⟨m, ms⟩
  · exact absurd hy (pySplit_ne_nil c ys)
  · induction xs with
    | nil => simp [pySplit, glueSplit, hy]
    | cons x xs ih =>
      rcases h : pySplit c xs with _ | ⟨l, ls⟩
      · exact absurd h (pySplit_ne_nil c xs)
      · rw [h] at ih
        cases ls with
        | nil =>
          have ih' : pySplit c (xs ++ ys) = (l ++ m) :: ms := by
            rw [ih]; rfl
          by_cases hx : x = c <;>
            simp [pySplit, List.cons_append, ih', h, hy, hx, glueSplit]
        | cons l2 ls2 =>
          have ih' : pySplit c (xs ++ ys) = l :: glueSplit (l2 :: ls2) (m :: ms) := by
            rw [ih]; rfl
          by_cases hx : x = c <;>
            simp [pySplit, List.cons_append, ih', h, hy, hx, glueSplit]

theorem pySplit_no_sep (c : Char) (xs : Str) (h : c ∉ xs) :
    pySplit c xs = [xs] := by
  induction xs with
  | nil => simp [pySplit]
  | cons x rest ih =>
    have hx : x ≠ c := fun e => h (e ▸ List.mem_cons_self x rest)
    have hr : c ∉ rest := fun m => h (List.mem_cons_of_mem x m)
    rw [pySplit, ih hr]
    simp [hx]

theorem pySplit_cons_sep (c : Char) (ys : Str) :
    pySplit c (c :: ys) = [] :: pySplit c ys := by
  rw [pySplit]
  rcases hy : pySplit c ys with _ | ⟨m, ms⟩
  · exact absurd hy (pySplit_ne_nil c ys)
  · simp

theorem glueSplit_cons_nil (as bs : List Str) (h : as ≠ []) :
    glueSplit as ([] :: bs) = as ++ bs := by
  induction as with
  | nil => exact absurd rfl h
  | cons a as ih =>
    cases as with
    | nil => simp [glueSplit]
    | cons a' as' => simp [glueSplit, ih]

theorem glueSplit_append_nil (as bs : List Str) (h : bs ≠ []) :
    glueSplit (as ++ [[]]) bs = as ++ bs := by
  induction as with
  | nil =>
    rcases bs with _ | ⟨m, ms⟩
    · exact absurd rfl h
    · simp [glueSplit]
  | cons a as ih =>
    cases as with
    | nil =>
      rcases bs with _ | ⟨m, ms⟩
      · exact absurd rfl h
      · simp [glueSplit]
    | cons a' as' => simpa [glueSplit] using ih

theorem pySplit_append_sep (c : Char) (xs ys : Str) (h : c ∉ xs) :
    pySplit c (xs ++ c :: ys) = xs :: pySplit c ys := by
  rw [pySplit_append, pySplit_no_sep c xs h, pySplit_cons_sep]
  exact glueSplit_cons_nil [xs] (pySplit c ys) (by simp)

theorem pySplit_ends_sep (c : Char) (xs : Str) :
    pySplit c (xs ++ [c]) = pySplit c xs ++ [[]] := by
  rw [pySplit_append]
  have : pySplit c [c] = [] :: [[]] := by simp [pySplit]
  rw [this]
  exact glueSplit_cons_nil _ _ (pySplit_ne_nil c xs)

theorem pySplit_append_of_ends_sep (c : Char) (A B : Str)
    (h : A = [] ∨ ∃ A', A = A' ++ [c]) :
    pySplit c (A ++ B) = (pySplit c A).dropLast ++ pySplit c B := by
  rcases h with h | ⟨A', rfl⟩
  · subst h; simp [pySplit]
  · rw [pySplit_append, pySplit_ends_sep, List.dropLast_concat,
      glueSplit_append_nil _ _ (pySplit_ne_nil c B)]

theorem pySplit_cons (c x : Char) (rest : Str) :
    pySplit c (x :: rest) =
      if x = c then [] :: pySplit c rest
      else (x :: (pySplit c rest).headD []) :: (pySplit c rest).tail := by
  rw [pySplit]
  rcases h : pySplit c rest with _ | ⟨m, ms⟩
  · exact absurd h (pySplit_ne_nil c rest)
  · by_cases hx : x = c <;> simp [hx]

theorem mem_pySplit_not_sep {c : Char} {s l : Str}
    (h : l ∈ pySplit c s) : c ∉ l := by
  induction s generalizing l with
  | nil => simp [pySplit] at h; simp [h]
  | cons x rest ih =>
    rw [pySplit_cons] at h
    rcases hr : pySplit c rest with _ | ⟨m, ms⟩
    · exact absurd hr (pySplit_ne_nil c rest)
    · rw [hr] at h
      by_cases hx : x = c
      · rw [if_pos hx] at h
        rcases List.mem_cons.mp h with h | h
        · simp [h]
        · exact ih (hr ▸ h)
      · rw [if_neg hx] at h
        rcases List.mem_cons.mp h with h | h
        · subst h
          intro hm
          rcases List.mem_cons.mp hm with e | hm'
          · exact hx e.symm
          · exact ih (by rw [hr]; exact List.mem_cons_self m ms) hm'
        · exact ih (hr ▸ List.mem_cons_of_mem m h)

theorem mem_pySplit_subset {c : Char} {s l : Str}
    (h : l ∈ pySplit c s) : ∀ x ∈ l, x ∈ s := by
  induction s generalizing l with
  | nil => simp [pySplit] at h; simp [h]
  | cons y rest ih =>
    rw [pySplit_cons] at h
    rcases hr : pySplit c rest with _ | ⟨m, ms⟩
    · exact absurd hr (pySplit_ne_nil c rest)
    · rw [hr] at h
      by_cases hy : y = c
      · rw [if_pos hy] at h
        rcases List.mem_cons.mp h with h | h
        · simp [h]
        · exact fun x hx => List.mem_cons_of_mem y (ih (hr ▸ h) x hx)
      · rw [if_neg hy] at h
        rcases List.mem_cons.mp h with h | h
        · subst h
          intro x hx
          rcases List.mem_cons.mp hx with e | hx'
          · exact e ▸ List.mem_cons_self y rest
          · exact List.mem_cons_of_mem y
              (ih (by rw [hr]; exact List.mem_cons_self m ms) x hx')
        · exact fun x hx =>
            List.mem_cons_of_mem y (ih (hr ▸ List.mem_cons_of_mem m h) x hx)

theorem replaceAllFuel_sublist (pat : Str) :
    ∀ (n : Nat) (s : Str), List.Sublist (replaceAllFuel pat n s) s := by
  intro n
  induction n with
  | zero => intro s; simp [replaceAllFuel]
  | succ n ih =>
    intro s
    cases s with
    | nil => simp [replaceAllFuel]
    | cons c rest =>
      rw [replaceAllFuel]
      split
      · exact (ih _).trans (List.drop_sublist _ _)
      · exact (ih rest).cons₂ c

theorem replaceAll_sublist (pat s : Str) : List.Sublist (replaceAll pat s) s :=
  replaceAllFuel_sublist pat s.length s

theorem mem_replaceAll {pat s : Str} {x : Char}
    (h : x ∈ replaceAll pat s) : x ∈ s :=
  (replaceAll_sublist pat s).subset h

theorem mem_pyStrip {s : Str} {x : Char} (h : x ∈ pyStrip s) : x ∈ s := by
  unfold pyStrip at h
  rw [List.mem_reverse] at h
  have h1 := (List.dropWhile_sublist isPySpace).subset h
  rw [List.mem_reverse] at h1
  exact (List.dropWhile_sublist isPySpace).subset h1

theorem mem_pyJoin {c : Char} {parts : List Str} {x : Char}
    (h : x ∈ pyJoin c parts) : x = c ∨ ∃ p ∈ parts, x ∈ p := by
  induction parts with
  | nil => simp [pyJoin, List.intercalate] at h
  | cons a rest ih =>
    cases rest with
    | nil =>
      simp [pyJoin, List.intercalate, List.intersperse] at h
      exact Or.inr ⟨a, by simp, h⟩
    | cons b r =>
      have hd : pyJoin c (a :: b :: r) = a ++ [c] ++ pyJoin c (b :: r) := by
        simp [pyJoin, List.intercalate, List.intersperse]
      rw [hd] at h
      simp only [List.append_assoc, List.mem_append, List.mem_singleton] at h
      rcases h with h | h | h
      · exact Or.inr ⟨a, by simp, h⟩
      · exact Or.inl h
      · rcases ih h with h' | ⟨p, hp, hx⟩
        · exact Or.inl h'
        · exact Or.inr ⟨p, List.mem_cons_of_mem a hp, hx⟩

theorem getD_mem {l : List Str} {i : Nat} (h : i < l.length) :
    l.getD i [] ∈ l := by
  rw [List.getD_eq_getElem _ _ h]
  exact List.getElem_mem h

/-! ### Right-stripping and the shape of formatted lines -/

/-- Right strip only (helper for reasoning about `pyStrip`). -/
def rstrip (s : Str) : Str := (s.reverse.dropWhile isPySpace).reverse

theorem pyStrip_of_head_nonspace {x : Char} (s : Str) (hx : isPySpace x = false) :
    pyStrip (x :: s) = rstrip (x :: s) := by
  unfold pyStrip rstrip
  rw [List.dropWhile_cons]
  simp [hx]

theorem rstrip_append (A' B : Str) (c : Char) (hc : isPySpace c = false) :
    rstrip (A' ++ [c] ++ B) = A' ++ [c] ++ rstrip B := by
  unfold rstrip
  have h1 : (A' ++ [c] ++ B).reverse = B.reverse ++ c :: A'.reverse := by simp
  rw [h1, List.dropWhile_append]
  split
  · next hemp =>
    have h2 : B.reverse.dropWhile isPySpace = [] := by
      simpa [List.isEmpty_iff] using hemp
    rw [List.dropWhile_cons]
    simp [hc, h2]
  · simp

theorem pySplit_length (c : Char) (s : Str) :
    (pySplit c s).length = s.count c + 1 := by
  induction s with
  | nil => simp [pySplit]
  | cons x rest ih =>
    rw [pySplit_cons]
    rcases hr : pySplit c rest with _ | ⟨m, ms⟩
    · exact absurd hr (pySplit_ne_nil c rest)
    · rw [hr] at ih
      by_cases hx : x = c
      · simp [hx, hr, List.count_cons, ← ih]
      · have hbeq : (x == c) = false := by simp [hx]
        simp only [if_neg hx, hr, List.tail_cons, List.length_cons] at ih ⊢
        simp only [List.count_cons, hbeq, Bool.false_eq_true, if_false]
        omega

/-- Well-formedness of an entry's fields: what a parsed entry always
satisfies and what makes its formatted line parse back as one entry. -/
def entryWf (e : MemEntry) : Prop :=
  ']' ∉ e.timestamp ∧ ']' ∉ e.category ∧
    '\n' ∉ e.timestamp ∧ '\n' ∉ e.category ∧ '\n' ∉ e.content

theorem fmtLine_no_newline {e : MemEntry} (h : entryWf e) : '\n' ∉ fmtLine e := by
  obtain ⟨-, -, h3, h4, h5⟩ := h
  intro hm
  simp only [fmtLine, List.mem_append] at hm
  rcases hm with ((((hm | hm) | hm) | hm) | hm) | hm
  · revert hm; decide
  · exact h3 hm
  · revert hm; decide
  · exact h4 hm
  · revert hm; decide
  · exact h5 hm

theorem pyStrip_fmtLine (e : MemEntry) :
    pyStrip (fmtLine e) =
      (('*' :: (str " [" ++ e.timestamp ++ str "] [" ++ e.category)) ++ [']'])
        ++ rstrip (' ' :: e.content) := by
  have hsh : fmtLine e =
      '*' :: ((str " [" ++ e.timestamp ++ str "] [" ++ e.category) ++ [']']
        ++ (' ' :: e.content)) := by
    simp only [fmtLine, str]
    simp
  rw [hsh, pyStrip_of_head_nonspace _ (by decide)]
  have := rstrip_append ('*' :: (str " [" ++ e.timestamp ++ str "] [" ++ e.category))
    (' ' :: e.content) ']' (by decide)
  simpa using this

theorem parseEntryLine_fmtLine_isSome (e : MemEntry)
    (hts : ']' ∉ e.timestamp) (hcat : ']' ∉ e.category) :
    (parseEntryLine (fmtLine e)).isSome := by
  have hline := pyStrip_fmtLine e
  have hpre : (str "* [").isPrefixOf (pyStrip (fmtLine e)) = true := by
    rw [hline]
    rw [List.isPrefixOf_iff_prefix]
    refine ⟨e.timestamp ++ str "] [" ++ e.category ++ [']']
      ++ rstrip (' ' :: e.content), ?_⟩
    simp [str]
  have hcount : 2 ≤ (pyStrip (fmtLine e)).count ']' := by
    rw [hline]
    simp only [List.count_append, List.count_cons]
    have h1 : e.timestamp.count ']' = 0 := List.count_eq_zero.mpr hts
    have h2 : e.category.count ']' = 0 := List.count_eq_zero.mpr hcat
    have h3 : (str " [").count ']' = 0 := by decide
    have h4 : (str "] [").count ']' = 1 := by decide
    simp [h1, h2, h3, h4]
  have hlen : 3 ≤ (pySplit ']' (pyStrip (fmtLine e))).length := by
    rw [pySplit_length]; omega
  unfold parseEntryLine
  rw [if_pos hpre, if_pos hlen]
  rfl

theorem parseEntryLine_some {raw : Str} {e : MemEntry}
    (h : parseEntryLine raw = some e) :
    ']' ∉ e.timestamp ∧ ']' ∉ e.category ∧
      (∀ x ∈ e.timestamp, x ∈ raw) ∧ (∀ x ∈ e.category, x ∈ raw) ∧
      (∀ x ∈ e.content, x = ']' ∨ x ∈ raw) := by
  simp only [parseEntryLine] at h
  rcases hb : (str "* [").isPrefixOf (pyStrip raw) with _ | _
  · rw [hb] at h; simp at h
  · rw [hb] at h
    simp only [if_true] at h
    by_cases h2 : 3 ≤ (pySplit ']' (pyStrip raw)).length
    · rw [if_pos h2] at h
      have he := (Option.some.injEq _ _).mp h
      have h0lt : 0 < (pySplit ']' (pyStrip raw)).length := by omega
      have h1lt : 1 < (pySplit ']' (pyStrip raw)).length := by omega
      have hmem0 : (pySplit ']' (pyStrip raw)).getD 0 [] ∈ pySplit ']' (pyStrip raw) :=
        getD_mem h0lt
      have hmem1 : (pySplit ']' (pyStrip raw)).getD 1 [] ∈ pySplit ']' (pyStrip raw) :=
        getD_mem h1lt
      refine ⟨?_, ?_, ?_, ?_, ?_⟩
      · intro hm
        rw [← he] at hm
        exact mem_pySplit_not_sep hmem0 (mem_replaceAll (mem_pyStrip hm))
      · intro hm
        rw [← he] at hm
        exact mem_pySplit_not_sep hmem1 (mem_replaceAll (mem_pyStrip hm))
      · intro x hm
        rw [← he] at hm
        exact mem_pyStrip
          (mem_pySplit_subset hmem0 x (mem_replaceAll (mem_pyStrip hm)))
      · intro x hm
        rw [← he] at hm
        exact mem_pyStrip
          (mem_pySplit_subset hmem1 x (mem_replaceAll (mem_pyStrip hm)))
      · intro x hm
        rw [← he] at hm
        rcases mem_pyJoin (mem_pyStrip hm) with hx | ⟨p, hp, hx⟩
        · exact Or.inl hx
        · exact Or.inr (mem_pyStrip
            (mem_pySplit_subset (List.drop_subset 2 _ hp) x hx))
    · rw [if_neg h2] at h; simp at h

theorem mem_parse_entryWf {s : Str} {e : MemEntry}
    (h : e ∈ parse_memory_entries s) : entryWf e := by
  obtain ⟨raw, hraw, hp⟩ := List.mem_filterMap.mp h
  have hnl : '\n' ∉ raw := mem_pySplit_not_sep hraw
  obtain ⟨h1, h2, h3, h4, h5⟩ := parseEntryLine_some hp
  refine ⟨h1, h2, fun hm => hnl (h3 _ hm), fun hm => hnl (h4 _ hm), fun hm => ?_⟩
  rcases h5 _ hm with hx | hx
  · exact absurd hx (by decide)
  · exact hnl hx

theorem pySplit_join_lines (lines : List Str) (hne : lines ≠ [])
    (hnl : ∀ l ∈ lines, '\n' ∉ l) :
    pySplit '\n' (pyJoin '\n' lines ++ ['\n']) = lines ++ [[]] := by
  induction lines with
  | nil => exact absurd rfl hne
  | cons a rest ih =>
    cases rest with
    | nil =>
      have ha : pyJoin '\n' [a] = a := by
        simp [pyJoin, List.intercalate, List.intersperse]
      rw [ha, pySplit_ends_sep, pySplit_no_sep _ _ (hnl a (by simp))]
    | cons b r =>
      have hd : pyJoin '\n' (a :: b :: r) = a ++ '\n' :: pyJoin '\n' (b :: r) := by
        simp [pyJoin, List.intercalate, List.intersperse]
      rw [hd]
      have hr : (a ++ '\n' :: pyJoin '\n' (b :: r)) ++ ['\n']
          = a ++ '\n' :: (pyJoin '\n' (b :: r) ++ ['\n']) := by simp
      rw [hr, pySplit_append_sep _ _ _ (hnl a (by simp))]
      rw [ih (by simp) (fun l hl => hnl l (List.mem_cons_of_mem a hl))]
      simp

theorem length_filterMap_of_isSome {α β : Type} {f : α → Option β}
    (l : List α) (h : ∀ x ∈ l, (f x).isSome) :
    (l.filterMap f).length = l.length := by
  induction l with
  | nil => simp
  | cons a rest ih =>
    rcases hfa : f a with _ | b
    · have := h a (by simp)
      rw [hfa] at this
      simp at this
    · rw [List.filterMap_cons_some hfa]
      simp only [List.length_cons]
      rw [ih (fun x hx => h x (List.mem_cons_of_mem a hx))]

theorem parse_memory_block (es : List MemEntry) (hwf : ∀ e ∈ es, entryWf e) :
    (parse_memory_entries (str "# MEMORY\n\n" ++ format_entries_to_memory es)).length
      = es.length := by
  rcases es with _ | ⟨e0, es'⟩
  · simp [format_entries_to_memory, parse_memory_entries]
    decide
  · set es := e0 :: es' with hes
    have hne : es ≠ [] := by simp [hes]
    have hfmt : format_entries_to_memory es
        = pyJoin '\n' (es.map fmtLine) ++ ['\n'] := by
      rw [format_entries_to_memory, if_neg hne]
    have hsh : str "# MEMORY\n\n" ++ format_entries_to_memory es
        = str "# MEMORY" ++ '\n' :: ('\n' :: format_entries_to_memory es) := by
      rfl
    have hlines : ∀ l ∈ es.map fmtLine, '\n' ∉ l := by
      intro l hl
      obtain ⟨e, he, rfl⟩ := List.mem_map.mp hl
      exact fmtLine_no_newline (hwf e he)
    unfold parse_memory_entries
    rw [hsh, pySplit_append_sep _ _ _ (by decide), pySplit_cons_sep, hfmt,
      pySplit_join_lines _ (by simp [hes]) hlines]
    rw [List.filterMap_cons_none (by rfl), List.filterMap_cons_none (by rfl),
      List.filterMap_append]
    have hnone : List.filterMap parseEntryLine [([] : Str)] = [] := by rfl
    rw [hnone, List.append_nil]
    have hlen := length_filterMap_of_isSome (es.map fmtLine) (fun l hl => by
      obtain ⟨e, he, rfl⟩ := List.mem_map.mp hl
      exact parseEntryLine_fmtLine_isSome e (hwf e he).1 (hwf e he).2.1)
    rw [hlen, List.length_map]

theorem parse_appendEntriesText (es : List MemEntry) (hwf : ∀ e ∈ es, entryWf e) :
    (parse_memory_entries (appendEntriesText es)).length = es.length := by
  induction es with
  | nil => decide
  | cons e rest ih =>
    have hsh : appendEntriesText (e :: rest)
        = fmtLine e ++ '\n' :: appendEntriesText rest := by
      simp [appendEntriesText]
    unfold parse_memory_entries
    rw [hsh, pySplit_append_sep _ _ _ (fmtLine_no_newline (hwf e (by simp)))]
    have hsome := parseEntryLine_fmtLine_isSome e (hwf e (by simp)).1 (hwf e (by simp)).2.1
    rcases hp : parseEntryLine (fmtLine e) with _ | v
    · rw [hp] at hsome; simp at hsome
    · rw [List.filterMap_cons_some hp]
      simp only [List.length_cons]
      have := ih (fun x hx => hwf x (List.mem_cons_of_mem e hx))
      unfold parse_memory_entries at this
      rw [this]

theorem parse_append_of_ends_nl (A B : Str)
    (h : A = [] ∨ ∃ A', A = A' ++ ['\n']) :
    (parse_memory_entries (A ++ B)).length
      = (parse_memory_entries A).length + (parse_memory_entries B).length := by
  unfold parse_memory_entries
  rw [pySplit_append_of_ends_sep '\n' A B h, List.filterMap_append, List.length_append]
  rcases h with h | ⟨A', rfl⟩
  · subst h
    simp only [pySplit, List.dropLast_single, List.filterMap_nil, List.length_nil,
      List.nil_append]
    rfl
  · rw [pySplit_ends_sep, List.dropLast_concat, List.filterMap_append]
    have hnone : List.filterMap parseEntryLine [([] : Str)] = [] := by rfl
    rw [hnone, List.append_nil]

/-! ### Counting entries across the archive -/

/-- Total number of parseable entries over all partition files. -/
def totalArchiveEntries (parts : List (Str × Str)) : Nat :=
  (parts.map (fun p => (parse_memory_entries p.2).length)).sum

/-- A file content that is empty or newline-terminated (every file the
archive writes satisfies this). -/
def nlTerminated (s : Str) : Prop := s = [] ∨ ∃ c, s = c ++ ['\n']

theorem nlTerminated_append {a b : Str} (ha : nlTerminated a) (hb : nlTerminated b) :
    nlTerminated (a ++ b) := by
  rcases hb with rfl | ⟨cb, rfl⟩
  · simpa using ha
  · exact Or.inr ⟨a ++ cb, by simp⟩

theorem appendEntriesText_nlTerminated (es : List MemEntry) :
    nlTerminated (appendEntriesText es) := by
  induction es with
  | nil => exact Or.inl rfl
  | cons e rest ih =>
    have hsh : appendEntriesText (e :: rest)
        = (fmtLine e ++ ['\n']) ++ appendEntriesText rest := by
      simp [appendEntriesText]
    rw [hsh]
    exact nlTerminated_append (Or.inr ⟨fmtLine e, rfl⟩) ih

theorem length_filter_add_length_filter_not {α : Type} (l : List α) (p : α → Bool) :
    (l.filter p).length + (l.filter (fun x => !p x)).length = l.length := by
  induction l with
  | nil => simp
  | cons a rest ih =>
    by_cases ha : p a = true <;> simp [List.filter_cons, ha] <;> omega

theorem totalArchiveEntries_appendPartition (id text : Str)
    (parts : List (Str × Str))
    (hwf : ∀ p ∈ parts, nlTerminated p.2)
    (hnd : (parts.map Prod.fst).Nodup) :
    totalArchiveEntries (appendPartition id text parts)
      = totalArchiveEntries parts + (parse_memory_entries text).length := by
  induction parts with
  | nil => simp [appendPartition, totalArchiveEntries]
  | cons q rest ih =>
    by_cases hq : q.1 = id
    · have hany : (q :: rest).any (fun p => decide (p.1 = id)) = true := by
        simp [hq]
      have hid : ∀ p ∈ rest, p.1 ≠ id := by
        intro p hp he
        have : q.1 ∈ rest.map Prod.fst := by
          rw [hq, ← he]; exact List.mem_map_of_mem Prod.fst hp
        exact (List.nodup_cons.mp hnd).1 this
      have hrest : rest.map
          (fun p => if p.1 = id then (p.1, p.2 ++ text) else p) = rest := by
        apply List.map_congr_left ?_ |>.trans (List.map_id rest)
        intro p hp
        simp [if_neg (hid p hp)]
      simp only [appendPartition, hany, if_true, List.map_cons, if_pos hq, hrest]
      have hparse : (parse_memory_entries (q.2 ++ text)).length
          = (parse_memory_entries q.2).length + (parse_memory_entries text).length :=
        parse_append_of_ends_nl q.2 text (hwf q (by simp))
      simp only [totalArchiveEntries, List.map_cons, List.sum_cons, hparse]
      omega
    · by_cases hr : rest.any (fun p => decide (p.1 = id)) = true
      · have hany : (q :: rest).any (fun p => decide (p.1 = id)) = true := by
          simp only [List.any_cons, hr, Bool.or_true]
        have hih := ih (fun p hp => hwf p (List.mem_cons_of_mem q hp))
          (List.nodup_cons.mp hnd).2
        simp only [appendPartition, hany, if_true, List.map_cons, if_neg hq] at *
        simp only [hr, if_true] at hih
        simp only [totalArchiveEntries, List.map_cons, List.sum_cons] at *
        omega
      · have hany : (q :: rest).any (fun p => decide (p.1 = id)) = false := by
          simp only [List.any_cons, Bool.or_eq_false_iff]
          exact ⟨by simp [hq], Bool.eq_false_iff.mpr hr⟩
        simp only [appendPartition, hany, Bool.false_eq_true, if_false]
        simp [totalArchiveEntries]
        omega

theorem appendPartition_wf (id text : Str) (parts : List (Str × Str))
    (hwf : ∀ p ∈ parts, nlTerminated p.2) (htext : nlTerminated text) :
    ∀ p ∈ appendPartition id text parts, nlTerminated p.2 := by
  intro p hp
  unfold appendPartition at hp
  split at hp
  · obtain ⟨q, hq, rfl⟩ := List.mem_map.mp hp
    by_cases h : q.1 = id
    · simpa [h] using nlTerminated_append (hwf q hq) htext
    · simpa [h] using hwf q hq
  · rcases List.mem_append.mp hp with h | h
    · exact hwf p h
    · simp at h
      rw [h]
      exact htext

theorem appendPartition_nodup (id text : Str) (parts : List (Str × Str))
    (hnd : (parts.map Prod.fst).Nodup) :
    ((appendPartition id text parts).map Prod.fst).Nodup := by
  unfold appendPartition
  split
  · have : (parts.map (fun p => if p.1 = id then (p.1, p.2 ++ text) else p)).map Prod.fst
        = parts.map Prod.fst := by
      rw [List.map_map]
      apply List.map_congr_left
      intro p hp
      by_cases h : p.1 = id <;> simp [h]
    rw [this]
    exact hnd
  · next hany =>
    have hfalse : ∀ p ∈ parts, p.1 ≠ id := by
      intro p hp he
      exact hany (List.any_eq_true.mpr ⟨p, hp, by simp [he]⟩)
    have hnotmem : id ∉ parts.map Prod.fst := by
      intro hm
      obtain ⟨p, hp, he⟩ := List.mem_map.mp hm
      exact hfalse p hp he
    rw [List.map_append]
    simp only [List.map_cons, List.map_nil]
    rw [List.nodup_append]
    refine ⟨hnd, List.nodup_singleton id, ?_⟩
    intro a ha hb
    simp only [List.mem_singleton] at hb
    rw [hb] at ha
    exact hnotmem ha

/-! ### Grouping by month -/

/-- Total number of entries across a list of month groups. -/
def sumGroupSizes (gs : List (Str × List MemEntry)) : Nat :=
  (gs.map (fun g => g.2.length)).sum

theorem addToGroup_nodup (gs : List (Str × List MemEntry)) (k : Str) (e : MemEntry)
    (hnd : (gs.map Prod.fst).Nodup) :
    ((addToGroup gs k e).map Prod.fst).Nodup := by
  unfold addToGroup
  split
  · have : (gs.map (fun g => if g.1 = k then (g.1, g.2 ++ [e]) else g)).map Prod.fst
        = gs.map Prod.fst := by
      rw [List.map_map]
      apply List.map_congr_left
      intro g hg
      by_cases h : g.1 = k <;> simp [h]
    rw [this]
    exact hnd
  · next hany =>
    have hnotmem : k ∉ gs.map Prod.fst := by
      intro hm
      obtain ⟨g, hg, he⟩ := List.mem_map.mp hm
      exact hany (List.any_eq_true.mpr ⟨g, hg, by simp [he]⟩)
    rw [List.map_append]
    simp only [List.map_cons, List.map_nil]
    rw [List.nodup_append]
    refine ⟨hnd, List.nodup_singleton k, ?_⟩
    intro a ha hb
    simp only [List.mem_singleton] at hb
    rw [hb] at ha
    exact hnotmem ha

theorem addToGroup_sum (gs : List (Str × List MemEntry)) (k : Str) (e : MemEntry)
    (hnd : (gs.map Prod.fst).Nodup) :
    sumGroupSizes (addToGroup gs k e) = sumGroupSizes gs + 1 := by
  induction gs with
  | nil => simp [addToGroup, sumGroupSizes]
  | cons q rest ih =>
    by_cases hq : q.1 = k
    · have hany : (q :: rest).any (fun g => decide (g.1 = k)) = true := by
        simp [hq]
      have hid : ∀ g ∈ rest, g.1 ≠ k := by
        intro g hg he
        have : q.1 ∈ rest.map Prod.fst := by
          rw [hq, ← he]; exact List.mem_map_of_mem Prod.fst hg
        exact (List.nodup_cons.mp hnd).1 this
      have hrest : rest.map
          (fun g => if g.1 = k then (g.1, g.2 ++ [e]) else g) = rest := by
        apply List.map_congr_left ?_ |>.trans (List.map_id rest)
        intro g hg
        simp [if_neg (hid g hg)]
      simp only [addToGroup, hany, if_true, List.map_cons, if_pos hq, hrest]
      simp only [sumGroupSizes, List.map_cons, List.sum_cons, List.length_append,
        List.length_singleton]
      omega
    · by_cases hr : rest.any (fun g => decide (g.1 = k)) = true
      · have hany : (q :: rest).any (fun g => decide (g.1 = k)) = true := by
          simp only [List.any_cons, hr, Bool.or_true]
        have hih := ih (List.nodup_cons.mp hnd).2
        simp only [addToGroup, hany, if_true, List.map_cons, if_neg hq] at *
        simp only [hr, if_true] at hih
        simp only [sumGroupSizes, List.map_cons, List.sum_cons] at *
        omega
      · have hany : (q :: rest).any (fun g => decide (g.1 = k)) = false := by
          simp only [List.any_cons, Bool.or_eq_false_iff]
          exact ⟨by simp [hq], Bool.eq_false_iff.mpr hr⟩
        simp only [addToGroup, hany, Bool.false_eq_true, if_false]
        simp [sumGroupSizes]
        omega

theorem addToGroup_bucket_subset (gs : List (Str × List MemEntry)) (k : Str)
    (e x : MemEntry) (g : Str × List MemEntry)
    (hg : g ∈ addToGroup gs k e) (hx : x ∈ g.2) :
    x = e ∨ ∃ g' ∈ gs, x ∈ g'.2 := by
  unfold addToGroup at hg
  split at hg
  · obtain ⟨q, hq, rfl⟩ := List.mem_map.mp hg
    by_cases h : q.1 = k
    · simp only [if_pos h] at hx
      rcases List.mem_append.mp hx with h' | h'
      · exact Or.inr ⟨q, hq, h'⟩
      · simp only [List.mem_singleton] at h'
        exact Or.inl h'
    · simp only [if_neg h] at hx
      exact Or.inr ⟨q, hq, hx⟩
  · rcases List.mem_append.mp hg with h | h
    · exact Or.inr ⟨g, h, hx⟩
    · simp only [List.mem_singleton] at h
      rw [h] at hx
      simp only [List.mem_singleton] at hx
      exact Or.inl hx

theorem groupFold_facts (es : List MemEntry) :
    ∀ gs : List (Str × List MemEntry), (gs.map Prod.fst).Nodup →
      (∀ e ∈ es, (monthKey? e.timestamp).isSome) →
      sumGroupSizes (es.foldl
        (fun gs e => match monthKey? e.timestamp with
          | none => gs
          | some k => addToGroup gs k e) gs) = sumGroupSizes gs + es.length ∧
      ((es.foldl (fun gs e => match monthKey? e.timestamp with
          | none => gs
          | some k => addToGroup gs k e) gs).map Prod.fst).Nodup ∧
      (∀ g ∈ es.foldl (fun gs e => match monthKey? e.timestamp with
          | none => gs
          | some k => addToGroup gs k e) gs, ∀ x ∈ g.2,
        x ∈ es ∨ ∃ g' ∈ gs, x ∈ g'.2) := by
  induction es with
  | nil =>
    intro gs hnd hk
    exact ⟨by simp, hnd, fun g hg x hx => Or.inr ⟨g, hg, hx⟩⟩
  | cons e rest ih =>
    intro gs hnd hk
    rcases hke : monthKey? e.timestamp with _ | k
    · have := hk e (by simp)
      rw [hke] at this
      simp at this
    · simp only [List.foldl_cons, hke]
      obtain ⟨h1, h2, h3⟩ := ih (addToGroup gs k e)
        (addToGroup_nodup gs k e hnd)
        (fun x hx => hk x (List.mem_cons_of_mem e hx))
      refine ⟨?_, h2, ?_⟩
      · rw [h1, addToGroup_sum gs k e hnd]
        simp only [List.length_cons]
        omega
      · intro g hg x hx
        rcases h3 g hg x hx with h | ⟨g', hg', hx'⟩
        · exact Or.inl (List.mem_cons_of_mem e h)
        · rcases addToGroup_bucket_subset gs k e x g' hg' hx' with h | ⟨g'', hg'', hx''⟩
          · exact Or.inl (h ▸ List.mem_cons_self e rest)
          · exact Or.inr ⟨g'', hg'', hx''⟩

theorem group_by_month_facts (es : List MemEntry)
    (hkey : ∀ e ∈ es, (monthKey? e.timestamp).isSome) :
    sumGroupSizes (group_by_month es) = es.length ∧
      (∀ g ∈ group_by_month es, ∀ x ∈ g.2, x ∈ es) := by
  obtain ⟨h1, _, h3⟩ := groupFold_facts es [] (by simp) hkey
  refine ⟨by simpa [sumGroupSizes] using h1, fun g hg x hx => ?_⟩
  rcases h3 g hg x hx with h | ⟨g', hg', _⟩
  · exact h
  · simp at hg'

theorem isPySpace_of_isDigit {c : Char} (h : c.isDigit = true) :
    isPySpace c = false := by
  rcases hs : isPySpace c with _ | _
  · rfl
  · exfalso
    simp only [isPySpace, Bool.or_eq_true, decide_eq_true_eq] at hs
    rcases hs with ((((rfl | rfl) | rfl) | rfl) | rfl) | rfl <;> simp at h

theorem parse4?_head {s : Str} {v : Nat × Str} (h : parse4? s = some v) :
    ∃ c r, s = c :: r ∧ c.isDigit = true := by
  rcases s with _ | ⟨a, _ | ⟨b, _ | ⟨c, _ | ⟨d, rest⟩⟩⟩⟩
  · simp [parse4?] at h
  · simp [parse4?] at h
  · simp [parse4?] at h
  · simp [parse4?] at h
  · refine ⟨a, b :: c :: d :: rest, rfl, ?_⟩
    rcases hd : digit? a with _ | w
    · rw [parse4?, hd] at h
      simp at h
    · unfold digit? at hd
      by_cases hdig : a.isDigit = true
      · exact hdig
      · rw [if_neg (by simp [hdig])] at hd
        simp at hd

theorem fromisoformat?_monthKey {ts : Str} {t : Int}
    (h : fromisoformat? ts = some t) : (monthKey? ts).isSome := by
  rcases h4 : parse4? ts with _ | v
  · rw [fromisoformat?, h4] at h
    simp at h
  · obtain ⟨c, r, rfl, hdig⟩ := parse4?_head h4
    unfold monthKey? firstToken?
    rw [List.dropWhile_cons]
    simp [isPySpace_of_isDigit hdig]

theorem mem_archiveOld_parse {content : Str} {now : Int} {days : Nat}
    {e : MemEntry} (h : e ∈ archiveOld content now days) :
    ∃ t, fromisoformat? e.timestamp = some t := by
  obtain ⟨-, hp⟩ := List.mem_filter.mp h
  rcases hf : fromisoformat? e.timestamp with _ | t
  · exfalso
    rw [decide_eq_true_eq, parse_timestamp, hf] at hp
    simp only [Option.getD_none] at hp
    have : (0 : Int) ≤ (days : Int) * 86400 := by positivity
    omega
  · exact ⟨t, rfl⟩

theorem runGroups_effect (appendOk : Str → Bool)
    (groups : List (Str × List MemEntry)) :
    ∀ st : Store, (∀ id, appendOk id = true) →
      (∀ p ∈ st.partitions, nlTerminated p.2) →
      ((st.partitions.map Prod.fst).Nodup) →
      (∀ g ∈ groups, ∀ e ∈ g.2, entryWf e) →
      totalArchiveEntries (runGroups appendOk groups st).1.partitions
          = totalArchiveEntries st.partitions + sumGroupSizes groups ∧
        (runGroups appendOk groups st).1.memory = st.memory := by
  induction groups with
  | nil =>
    intro st _ _ _ _
    exact ⟨by simp [runGroups, sumGroupSizes], rfl⟩
  | cons g rest ih =>
    intro st hok hwf hnd hwfes
    obtain ⟨id, es⟩ := g
    have hwe : ∀ e ∈ es, entryWf e := hwfes (id, es) (by simp)
    set st' : Store :=
      { st with
        partitions := appendPartition id (appendEntriesText es) st.partitions
        indexCounts := upsertIndex id es.length st.indexCounts } with hst'
    have hwf' : ∀ p ∈ st'.partitions, nlTerminated p.2 :=
      appendPartition_wf _ _ _ hwf (appendEntriesText_nlTerminated es)
    have hnd' : (st'.partitions.map Prod.fst).Nodup :=
      appendPartition_nodup _ _ _ hnd
    obtain ⟨ih1, ih2⟩ := ih st' hok hwf' hnd'
      (fun g hg => hwfes g (List.mem_cons_of_mem _ hg))
    have htot : totalArchiveEntries st'.partitions
        = totalArchiveEntries st.partitions + es.length := by
      rw [hst']
      rw [totalArchiveEntries_appendPartition _ _ _ hwf hnd,
        parse_appendEntriesText es hwe]
    have hrun : runGroups appendOk ((id, es) :: rest) st
        = ((runGroups appendOk rest st').1,
           (id ++ str ".md") :: (runGroups appendOk rest st').2) := by
      rw [runGroups, hok id]
      simp only [if_true, ← hst']
    rw [hrun]
    refine ⟨?_, ?_⟩
    · simp only [ih1, htot, sumGroupSizes, List.map_cons, List.sum_cons]
      omega
    · rw [ih2]

theorem archive_counts (appendOk : Str → Bool) (now : Int) (days : Nat)
    (st : Store)
    (hok : ∀ id, appendOk id = true)
    (hwfp : ∀ p ∈ st.partitions, nlTerminated p.2)
    (hnd : (st.partitions.map Prod.fst).Nodup) :
    (parse_memory_entries st.memory).length
        = (parse_memory_entries
            (archive_old_entries appendOk true now days st).1.memory).length
          + (archive_old_entries appendOk true now days st).2.archivedCount
      ∧ totalArchiveEntries (archive_old_entries appendOk true now days st).1.partitions
        = totalArchiveEntries st.partitions
          + (archive_old_entries appendOk true now days st).2.archivedCount := by
  by_cases h0 : st.memory = []
  · simp only [archive_old_entries, if_pos h0]
    exact ⟨by omega, by omega⟩
  · by_cases h1 : archiveOld st.memory now days = []
    · simp only [archive_old_entries, if_neg h0, if_pos h1]
      exact ⟨by omega, by omega⟩
    · have hkey : ∀ e ∈ archiveOld st.memory now days, (monthKey? e.timestamp).isSome := by
        intro e he
        obtain ⟨t, ht⟩ := mem_archiveOld_parse he
        exact fromisoformat?_monthKey ht
      obtain ⟨hsum, hsub⟩ := group_by_month_facts _ hkey
      have hwfold : ∀ g ∈ group_by_month (archiveOld st.memory now days),
          ∀ x ∈ g.2, entryWf x := by
        intro g hg x hx
        exact mem_parse_entryWf (List.mem_filter.mp (hsub g hg x hx)).1
      obtain ⟨htot, hmem1⟩ := runGroups_effect appendOk
        (group_by_month (archiveOld st.memory now days)) st hok hwfp hnd hwfold
      have hwfrecent : ∀ e ∈ archiveRecent st.memory now days, entryWf e := by
        intro e he
        exact mem_parse_entryWf (List.mem_filter.mp he).1
      have hsplit : (archiveOld st.memory now days).length
            + (archiveRecent st.memory now days).length
          = (parse_memory_entries st.memory).length :=
        length_filter_add_length_filter_not (parse_memory_entries st.memory) _
      have hblock := parse_memory_block _ hwfrecent
      rcases hr : runGroups appendOk
          (group_by_month (archiveOld st.memory now days)) st with ⟨st1, files⟩
      rw [hr] at htot hmem1
      have htot1 : totalArchiveEntries st1.partitions
          = totalArchiveEntries st.partitions
            + sumGroupSizes (group_by_month (archiveOld st.memory now days)) := htot
      simp only [archive_old_entries, if_neg h0, if_neg h1, hr, reduceIte]
      constructor
      · rw [hblock]
        omega
      · omega

theorem archive_noop (appendOk : Str → Bool) (memOk : Bool) (now2 : Int)
    (days : Nat) (st' : Store)
    (h : ∀ e ∈ parse_memory_entries st'.memory,
      ¬ (parse_timestamp now2 e.timestamp < now2 - days * 86400)) :
    archive_old_entries appendOk memOk now2 days st'
      = (st', { status := str "OK" }) := by
  by_cases h0 : st'.memory = []
  · simp [archive_old_entries, h0]
  · have hold : archiveOld st'.memory now2 days = [] := by
      rw [archiveOld]
      exact List.filter_eq_nil_iff.mpr
        (fun e he => by simpa using h e he)
    simp [archive_old_entries, h0, hold]

/-! ### Concrete reference inputs used by the claim theorems -/

/-- A reference `datetime.now()`: 2026-10-12 00:00:00. -/
def nowRef : Int := (fromisoformat? (str "2026-10-12 00:00:00")).getD 0

/-- A store holding exactly one entry, dated 2020 (much older than any
archival threshold). -/
def c1Store : Store :=
  { memory := str "# MEMORY\n\n* [2020-01-01 00:00:00] [note] alpha\n"
    partitions := []
    indexCounts := [] }

/-- A store holding one malformed bullet line (`* [bad`, which fails
entry parsing) and one well-formed old entry. -/
def c5Store : Store :=
  { memory := str "# MEMORY\n\n* [bad\n* [2020-01-01 00:00:00] [c] old\n"
    partitions := []
    indexCounts := [] }

/-- A store holding one old (2020) and one recent (one day before
`nowRef`) entry. -/
def c9Store : Store :=
  { memory := str "# MEMORY\n\n* [2020-01-01 00:00:00] [note] alpha\n* [2026-10-11 00:00:00] [note] beta\n"
    partitions := []
    indexCounts := [] }

/-- Claim C1 (code bug): archival is not atomic. With a store holding
one entry older than 21 days and every partition append failing
(`appendOk = false`, as when `ArchiveRepository.append_entries` returns
`False`), `archive_old_entries` does not abort: it still reports
`SUCCESS` with `archived_count = 1`, rewrites MEMORY.md down to the bare
header, and leaves the archive untouched — the entry is lost from both
sides, contradicting the spec's requirement that the service abort
before touching MemoryStore. -/
theorem C1_failed_append_still_rewrites_store :
    (parse_memory_entries c1Store.memory).length = 1
      ∧ (archive_old_entries (fun _ => false) true nowRef 21 c1Store).2.status
          = str "SUCCESS"
      ∧ (archive_old_entries (fun _ => false) true nowRef 21 c1Store).2.archivedCount = 1
      ∧ (archive_old_entries (fun _ => false) true nowRef 21 c1Store).1.memory
          = str "# MEMORY\n\n"
      ∧ (archive_old_entries (fun _ => false) true nowRef 21 c1Store).1.partitions
          = [] := by
  decide

/-- Claim C2: conservation. For any store with well-formed partition
files (newline-terminated contents, distinct identifiers), a successful
archival pass (every partition append succeeds and the MEMORY.md
rewrite succeeds) preserves the entry count exactly: the number of
entries parsed from MemoryStore before the pass equals the number
remaining after plus the reported `archived_count`, and the archive
gains exactly `archived_count` entries. -/
theorem C2_archival_conservation (appendOk : Str → Bool) (memOk : Bool)
    (now : Int) (days : Nat) (st : Store)
    (hok : ∀ id, appendOk id = true) (hmem : memOk = true)
    (hwfp : ∀ p ∈ st.partitions, nlTerminated p.2)
    (hnd : (st.partitions.map Prod.fst).Nodup) :
    (parse_memory_entries st.memory).length
        = (parse_memory_entries
            (archive_old_entries appendOk memOk now days st).1.memory).length
          + (archive_old_entries appendOk memOk now days st).2.archivedCount
      ∧ totalArchiveEntries (archive_old_entries appendOk memOk now days st).1.partitions
        = totalArchiveEntries st.partitions
          + (archive_old_entries appendOk memOk now days st).2.archivedCount := by
  subst hmem
  exact archive_counts appendOk now days st hok hwfp hnd

/-- Witness for C2 at a concrete input: the two-entry store `c9Store`
(one old, one recent entry) under a fully successful pass. -/
theorem C2_archival_conservation_witness :
    (parse_memory_entries c9Store.memory).length
        = (parse_memory_entries
            (archive_old_entries (fun _ => true) true nowRef 21 c9Store).1.memory).length
          + (archive_old_entries (fun _ => true) true nowRef 21 c9Store).2.archivedCount
      ∧ totalArchiveEntries (archive_old_entries (fun _ => true) true nowRef 21 c9Store).1.partitions
        = totalArchiveEntries c9Store.partitions
          + (archive_old_entries (fun _ => true) true nowRef 21 c9Store).2.archivedCount :=
  C2_archival_conservation (fun _ => true) true nowRef 21 c9Store
    (fun _ => rfl) rfl (by intro p hp; simp [c9Store] at hp) (by simp [c9Store])

/-- Claim C9: idempotence. After any `archive_old_entries` pass, if at
the time of the second call no stored entry qualifies as old (every
entry parsed from the updated MemoryStore has timestamp at or after the
cutoff — "no entries newly qualifying"), the second call returns
`archived_count = 0` with status `OK` and performs no work: the store
state is returned unchanged. -/
theorem C9_second_archival_pass_noop (appendOk : Str → Bool) (memOk : Bool)
    (now now2 : Int) (days : Nat) (st : Store)
    (h : ∀ e ∈ parse_memory_entries
        (archive_old_entries appendOk memOk now days st).1.memory,
      ¬ (parse_timestamp now2 e.timestamp < now2 - days * 86400)) :
    archive_old_entries appendOk memOk now2 days
        (archive_old_entries appendOk memOk now days st).1
      = ((archive_old_entries appendOk memOk now days st).1,
         { status := str "OK" })
      ∧ (archive_old_entries appendOk memOk now2 days
          (archive_old_entries appendOk memOk now days st).1).2.archivedCount = 0 := by
  have he := archive_noop appendOk memOk now2 days
    (archive_old_entries appendOk memOk now days st).1 h
  exact ⟨he, by rw [he]⟩

/-- Witness for C9 at a concrete input: archive `c9Store` (one old, one
recent entry) at `nowRef` with threshold 21, then run the pass again at
the same time; the hypothesis that nothing newly qualifies is
discharged by evaluation. -/
theorem C9_second_archival_pass_noop_witness :
    archive_old_entries (fun _ => true) true nowRef 21
        (archive_old_entries (fun _ => true) true nowRef 21 c9Store).1
      = ((archive_old_entries (fun _ => true) true nowRef 21 c9Store).1,
         { status := str "OK" })
      ∧ (archive_old_entries (fun _ => true) true nowRef 21
          (archive_old_entries (fun _ => true) true nowRef 21 c9Store).1).2.archivedCount
        = 0 :=
  C9_second_archival_pass_noop (fun _ => true) true nowRef nowRef 21 c9Store
    (by decide)

/-- Claim C10: restore error atomicity. When the requested partition is
missing (`ArchiveRepository.read` returns `None`) or reads back empty,
`restore_from_archive` returns an `ERROR` status and the whole store —
in particular MEMORY.md — is returned unchanged; the merge-sort-rewrite
is never reached. -/
theorem C10_restore_missing_partition_error (memOk : Bool) (st : Store) (id : Str)
    (h : lookupPartition id st.partitions = none
      ∨ lookupPartition id st.partitions = some []) :
    restore_from_archive memOk st id = (st, { status := str "ERROR" }) := by
  rcases h with h | h
  · simp [restore_from_archive, h]
  · simp [restore_from_archive, h]

/-- Witness for C10 at a concrete input: restoring the partition
`1999-01`, which does not exist in `c1Store`'s empty archive. -/
theorem C10_restore_missing_partition_error_witness :
    restore_from_archive true c1Store (str "1999-01")
      = (c1Store, { status := str "ERROR" }) :=
  C10_restore_missing_partition_error true c1Store (str "1999-01")
    (Or.inl (by decide))

/-! ### Placement of entries by tier_entries -/

theorem tier_entries_mem (now : Int) (p w c : Nat) (entries : List RepoEntry)
    (e : RepoEntry) (he : e ∈ entries) :
    (strptimeYmd? e.date = none → e ∈ (tier_entries now p w c entries).2.1)
      ∧ (∀ d, strptimeYmd? e.date = some d →
          ((now - p * 86400 < d → e ∈ (tier_entries now p w c entries).1)
            ∧ (¬ (now - p * 86400 < d) → now - w * 86400 < d →
                e ∈ (tier_entries now p w c entries).2.1)
            ∧ (¬ (now - p * 86400 < d) → ¬ (now - w * 86400 < d) →
                e ∈ (tier_entries now p w c entries).2.2))) := by
  induction entries with
  | nil => simp at he
  | cons f rest ih =>
    rcases htr : tier_entries now p w c rest with ⟨hh, rest2⟩
    rcases rest2 with ⟨ww, cc⟩
    rcases List.mem_cons.mp he with rfl | he'
    · constructor
      · intro hn
        rw [tier_entries, htr, hn]
        simp
      · intro d hd
        rw [tier_entries, htr, hd]
        refine ⟨fun h1 => ?_, fun h1 h2 => ?_, fun h1 h2 => ?_⟩
        · simp [if_pos h1]
        · simp [if_neg h1, if_pos h2]
        · simp [if_neg h1, if_neg h2]
    · obtain ⟨ihn, ihs⟩ := ih he'
      rw [htr] at ihn ihs
      have place : ∀ X : List RepoEntry × List RepoEntry × List RepoEntry,
          (X = (e :: hh, ww, cc) ∨ X = (hh, e :: ww, cc) ∨ X = (hh, ww, e :: cc)
            ∨ X = (hh, ww, cc)) → True := fun _ _ => trivial
      clear place
      constructor
      · intro hn
        have hw := ihn hn
        rw [tier_entries, htr]
        rcases hfd : strptimeYmd? f.date with _ | d
        · exact List.mem_cons_of_mem f hw
        · by_cases h1 : now - p * 86400 < d
          · simp only [if_pos h1]; exact hw
          · by_cases h2 : now - w * 86400 < d
            · simp only [if_neg h1, if_pos h2]
              exact List.mem_cons_of_mem f hw
            · simp only [if_neg h1, if_neg h2]; exact hw
      · intro d hd
        obtain ⟨ia, ib, ic⟩ := ihs d hd
        rw [tier_entries, htr]
        rcases hfd : strptimeYmd? f.date with _ | d'
        · exact ⟨fun h1 => ia h1, fun h1 h2 => List.mem_cons_of_mem f (ib h1 h2),
            fun h1 h2 => ic h1 h2⟩
        · by_cases h1 : now - p * 86400 < d'
          · simp only [if_pos h1]
            exact ⟨fun hx => List.mem_cons_of_mem f (ia hx), ib, ic⟩
          · by_cases h2 : now - w * 86400 < d'
            · simp only [if_neg h1, if_pos h2]
              exact ⟨ia, fun hx hy => List.mem_cons_of_mem f (ib hx hy), ic⟩
            · simp only [if_neg h1, if_neg h2]
              exact ⟨ia, ib, fun hx hy => List.mem_cons_of_mem f (ic hx hy)⟩

/-- Decidable equality for `Except` results, so closed statements about
`write_entry` can be settled by evaluation. -/
instance instDecEqExcept {α β : Type} [DecidableEq α] [DecidableEq β] :
    DecidableEq (Except α β)
  | .error a, .error b =>
    if h : a = b then .isTrue (by rw [h])
    else .isFalse (by intro he; cases he; exact h rfl)
  | .error _, .ok _ => .isFalse (by intro h; cases h)
  | .ok _, .error _ => .isFalse (by intro h; cases h)
  | .ok a, .ok b =>
    if h : a = b then .isTrue (by rw [h])
    else .isFalse (by intro he; cases he; exact h rfl)

/-- Claim C3 (code bug): the persisted line is not the canonical bullet.
`MemoryManager.write_entry` formats `* [timestamp] [category] content`,
but `MemoryRepository.write` wraps that text in its own `* [date]`
bullet, so the file gains the double-bulleted line
`* [2026-10-12] * [2026-01-15 10:00:00] [learning] Learned Python basics`
(plus a leading blank line), and `parse_entries` reads it back with
`date` equal to the repository's write date and `content` equal to the
entire canonical bullet — the entry's own timestamp and category are
not recovered as fields. -/
theorem C3_write_entry_double_bullet :
    write_entry (some (str "# MEMORY\n\n")) (str "learning")
        (str "Learned Python basics") (some (str "2026-01-15 10:00:00"))
        (str "2026-10-12 09:00:00") (str "2026-10-12")
      = .ok (str "# MEMORY\n\n\n* [2026-10-12] * [2026-01-15 10:00:00] [learning] Learned Python basics\n",
          str "2026-01-15 10:00:00")
      ∧ repo_parse_entries
          (str "# MEMORY\n\n\n* [2026-10-12] * [2026-01-15 10:00:00] [learning] Learned Python basics\n")
        = [{ date := str "2026-10-12"
             content := str "* [2026-01-15 10:00:00] [learning] Learned Python basics" }] := by
  constructor
  · decide
  · decide

/-- A repository entry aged exactly 7 days at `nowRef`. -/
def c4Entry : RepoEntry := { date := str "2026-10-05", content := str "x" }

/-- Counterexample to claim C4 as stated: with the default tiers
(7/14/21), an entry aged exactly `preserve_recent_days` = 7 days is
placed in Warm, not Hot — `tier_entries` uses the strict comparison
`entry_date > now - preserve` for the Hot tier. -/
theorem C4_counterexample_boundary_age_is_warm :
    strptimeYmd? c4Entry.date = some (nowRef - 7 * 86400)
      ∧ tier_entries nowRef 7 14 21 [c4Entry] = ([], [c4Entry], []) := by
  constructor
  · decide
  · decide

/-- Claim C4 as amended: the Hot boundary is strict. For an entry whose
date parses to `d`: aged exactly `preserve_recent_days` (with
`preserve < warm_days`) it is classified Warm, not Hot; one day older
(with `preserve + 1 < warm_days`) it is also Warm; and aged strictly
more than `warm_days` (with `preserve ≤ warm_days`) it is Cold. -/
theorem C4_amended_tier_boundaries (now : Int) (preserve warm cold : Nat)
    (entries : List RepoEntry) (e : RepoEntry) (d : Int)
    (he : e ∈ entries) (hd : strptimeYmd? e.date = some d) :
    (d = now - preserve * 86400 → preserve < warm →
        e ∈ (tier_entries now preserve warm cold entries).2.1)
      ∧ (d = now - (preserve + 1) * 86400 → preserve + 1 < warm →
        e ∈ (tier_entries now preserve warm cold entries).2.1)
      ∧ (d < now - warm * 86400 → preserve ≤ warm →
        e ∈ (tier_entries now preserve warm cold entries).2.2) := by
  obtain ⟨-, hs⟩ := tier_entries_mem now preserve warm cold entries e he
  obtain ⟨-, hwarm, hcold⟩ := hs d hd
  refine ⟨fun hde hpw => ?_, fun hde hpw => ?_, fun hde hpw => ?_⟩
  · refine hwarm (by omega) ?_
    have h2 : (preserve : Int) < (warm : Int) := by exact_mod_cast hpw
    have h3 : (preserve : Int) * 86400 < (warm : Int) * 86400 := by omega
    omega
  · refine hwarm (by omega) ?_
    have h2 : ((preserve + 1 : Nat) : Int) < (warm : Int) := by exact_mod_cast hpw
    have h3 : ((preserve + 1 : Nat) : Int) * 86400 < (warm : Int) * 86400 := by omega
    omega
  · have h2 : (preserve : Int) ≤ (warm : Int) := by exact_mod_cast hpw
    have h3 : (preserve : Int) * 86400 ≤ (warm : Int) * 86400 := by omega
    exact hcold (by omega) (by omega)

/-- Witness for C4 at concrete inputs (tiers 7/14, `nowRef` midnight):
an entry aged exactly 7 days lands in Warm, an entry aged 8 days lands
in Warm, and an entry aged 22 days lands in Cold. -/
theorem C4_amended_tier_boundaries_witness :
    c4Entry ∈ (tier_entries nowRef 7 14 21 [c4Entry]).2.1
      ∧ (⟨str "2026-10-04", str "y"⟩ : RepoEntry)
          ∈ (tier_entries nowRef 7 14 21 [⟨str "2026-10-04", str "y"⟩]).2.1
      ∧ (⟨str "2026-09-20", str "z"⟩ : RepoEntry)
          ∈ (tier_entries nowRef 7 14 21 [⟨str "2026-09-20", str "z"⟩]).2.2 :=
  ⟨(C4_amended_tier_boundaries nowRef 7 14 21 [c4Entry] c4Entry
      (nowRef - 7 * 86400) (by decide) (by decide)).1 (by decide) (by decide),
   (C4_amended_tier_boundaries nowRef 7 14 21 [⟨str "2026-10-04", str "y"⟩]
      ⟨str "2026-10-04", str "y"⟩ (nowRef - 8 * 86400) (by decide) (by decide)).2.1
      (by decide) (by decide),
   (C4_amended_tier_boundaries nowRef 7 14 21 [⟨str "2026-09-20", str "z"⟩]
      ⟨str "2026-09-20", str "z"⟩ (nowRef - 22 * 86400) (by decide) (by decide)).2.2
      (by decide) (by decide)⟩

/-- Counterexample to claim C5 as stated: a persisted bullet line whose
format fails to parse is silently dropped by an archival pass. In
`c5Store`, the line `* [bad` is a line of MEMORY.md that
`_parse_memory_entries` rejects (fewer than three `]`-separated parts);
after `archive_old_entries` (all appends succeeding), MEMORY.md is
rewritten to the bare header — the malformed line is gone from the
store and was never written to any partition. -/
theorem C5_counterexample_malformed_line_dropped :
    (str "* [bad") ∈ pySplit '\n' c5Store.memory
      ∧ parseEntryLine (str "* [bad") = none
      ∧ (archive_old_entries (fun _ => true) true nowRef 21 c5Store).1.memory
          = str "# MEMORY\n\n"
      ∧ (archive_old_entries (fun _ => true) true nowRef 21 c5Store).1.partitions
          = [(str "2020-01", str "* [2020-01-01 00:00:00] [c] old\n")] := by
  refine ⟨?_, ?_, ?_, ?_⟩ <;> decide

/-- Claim C5 as amended: entries whose timestamp fails to parse are
protected — `tier_entries` places an entry with an unparsable date in
Warm, and `archive_old_entries` classifies an entry whose timestamp
`fromisoformat` rejects as recent (it is in the kept set written back
to MEMORY.md and in no month group appended to a partition). A line
whose whole format fails to parse, however, is not recognised as an
entry at all and is removed when the archival pass rewrites the file
(the counterexample above). -/
theorem C5_amended_unparsable_entries (now : Int)
    (p w c days : Nat) (entries : List RepoEntry) (e : RepoEntry)
    (st : Store) (me : MemEntry)
    (he : e ∈ entries) (hn : strptimeYmd? e.date = none)
    (hme : me ∈ parse_memory_entries st.memory)
    (hts : fromisoformat? me.timestamp = none) :
    e ∈ (tier_entries now p w c entries).2.1
      ∧ me ∈ archiveRecent st.memory now days
      ∧ (∀ g ∈ group_by_month (archiveOld st.memory now days), me ∉ g.2) := by
  have hnotold : ¬ (parse_timestamp now me.timestamp < now - days * 86400) := by
    rw [parse_timestamp, hts]
    simp only [Option.getD_none]
    have : (0 : Int) ≤ (days : Int) * 86400 := by positivity
    omega
  refine ⟨(tier_entries_mem now p w c entries e he).1 hn, ?_, ?_⟩
  · rw [archiveRecent]
    refine List.mem_filter.mpr ⟨hme, ?_⟩
    simpa using hnotold
  · intro g hg hmem
    have hkey : ∀ x ∈ archiveOld st.memory now days, (monthKey? x.timestamp).isSome := by
      intro x hx
      obtain ⟨t, ht⟩ := mem_archiveOld_parse hx
      exact fromisoformat?_monthKey ht
    obtain ⟨-, hsub⟩ := group_by_month_facts _ hkey
    have hold := hsub g hg me hmem
    have := (List.mem_filter.mp hold).2
    rw [decide_eq_true_eq] at this
    exact hnotold this

/-- Witness for C5 at concrete inputs: the entry dated `garbage` lands
in Warm under 7/14 tiering, and the store entry with timestamp `junk`
stays in the recent set of an archival pass at `nowRef` and appears in
no month group. -/
theorem C5_amended_unparsable_entries_witness :
    (⟨str "garbage", str "g"⟩ : RepoEntry)
        ∈ (tier_entries nowRef 7 14 21 [⟨str "garbage", str "g"⟩]).2.1
      ∧ (⟨str "junk", str "k", str "kk"⟩ : MemEntry)
          ∈ archiveRecent (str "# MEMORY\n\n* [junk] [k] kk\n") nowRef 21
      ∧ (∀ g ∈ group_by_month
            (archiveOld (str "# MEMORY\n\n* [junk] [k] kk\n") nowRef 21),
          (⟨str "junk", str "k", str "kk"⟩ : MemEntry) ∉ g.2) :=
  C5_amended_unparsable_entries nowRef 7 14 21 21
    [⟨str "garbage", str "g"⟩] ⟨str "garbage", str "g"⟩
    { memory := str "# MEMORY\n\n* [junk] [k] kk\n", partitions := [], indexCounts := [] }
    ⟨str "junk", str "k", str "kk"⟩
    (by decide) (by decide) (by decide) (by decide)

/-! ### Rounding and clamping in the priority engine -/

theorem floor_le_pyRound (q : Rat) : ⌊q⌋ ≤ pyRound q := by
  unfold pyRound
  split
  · exact le_refl _
  · split
    · omega
    · split <;> omega

theorem pyRound_le_floor_add_one (q : Rat) : pyRound q ≤ ⌊q⌋ + 1 := by
  unfold pyRound
  split
  · omega
  · split
    · omega
    · split <;> omega

theorem pyRound_intCast (n : Int) : pyRound (n : Rat) = n := by
  unfold pyRound
  rw [Int.floor_intCast]
  simp

theorem le_pyRound {q : Rat} {n : Int} (h : (n : Rat) ≤ q) : n ≤ pyRound q := by
  have hf : n ≤ ⌊q⌋ := Int.le_floor.mpr h
  exact le_trans hf (floor_le_pyRound q)

theorem pyRound_le {q : Rat} {n : Int} (h : q ≤ (n : Rat)) : pyRound q ≤ n := by
  by_cases hf : ⌊q⌋ + 1 ≤ n
  · exact le_trans (pyRound_le_floor_add_one q) hf
  · have hge : n ≤ ⌊q⌋ := by omega
    have h1 : (n : Rat) ≤ q := le_trans (by exact_mod_cast hge) (Int.floor_le q)
    have heq : q = (n : Rat) := le_antisymm h h1
    rw [heq, pyRound_intCast]

theorem clamp_pyRound (q : Rat) :
    max 1 (min 10 (pyRound q)) = pyRound (max 1 (min 10 q)) := by
  rcases le_total q 1 with h1 | h1
  · have hmin : min (10 : Rat) q = q := min_eq_right (le_trans h1 (by norm_num))
    have hmax : max (1 : Rat) q = 1 := max_eq_left h1
    have hle : pyRound q ≤ 1 := pyRound_le (by exact_mod_cast h1)
    have hminz : min (10 : Int) (pyRound q) = pyRound q :=
      min_eq_right (le_trans hle (by norm_num))
    rw [hmin, hmax, hminz, max_eq_left hle,
      show ((1 : Rat)) = ((1 : Int) : Rat) by norm_num, pyRound_intCast]
  · rcases le_total 10 q with h10 | h10
    · have hmin : min (10 : Rat) q = 10 := min_eq_left h10
      have hge : 10 ≤ pyRound q := le_pyRound (by exact_mod_cast h10)
      have hminz : min (10 : Int) (pyRound q) = 10 := min_eq_left hge
      rw [hmin, hminz, max_eq_right (by norm_num : (1 : Int) ≤ 10),
        max_eq_right (by norm_num : (1 : Rat) ≤ 10),
        show ((10 : Rat)) = ((10 : Int) : Rat) by norm_num, pyRound_intCast]
    · have hmin : min (10 : Rat) q = q := min_eq_right h10
      have hmax : max (1 : Rat) q = q := max_eq_right h1
      have hge : 1 ≤ pyRound q := le_pyRound (by exact_mod_cast h1)
      have hle : pyRound q ≤ 10 := pyRound_le (by exact_mod_cast h10)
      rw [hmin, hmax, min_eq_right hle, max_eq_right hge]

/-- Modelled from the spec: the scoring formula of §4.5,
`level = round(clamp(base + 0.3*(urgency-5) + 0.2*(impact-5)
+ 0.5*blocked_count + adjustment, 1, 10))`, stated over exact rationals
for comparison with `evaluate`. -/
def specLevel (adjustments : List (String × Rat)) (task : String)
    (urgency impact : Int) (blocked_count : Nat) : Int :=
  pyRound (max 1 (min 10 ((matrixGet task : Rat)
    + (3/10) * ((urgency : Rat) - 5) + (1/5) * ((impact : Rat) - 5)
    + (1/2) * (blocked_count : Rat) + adjGet adjustments task)))

/-- Claim C6: score bounds and formula. For every adjustment table,
task, category, urgency and impact in `[1, 10]` and any
`blocked_count`, `evaluate` produces a level in `[1, 10]` equal to the
spec's rounded clamp of
`base + 0.3(urgency-5) + 0.2(impact-5) + 0.5*blocked_count + adjustment`
(the code rounds before clamping; the two compositions agree). -/
theorem C6_evaluate_level_bounds_and_formula
    (adjustments : List (String × Rat)) (task category : String)
    (urgency impact : Int) (blocked_count : Nat)
    (hu1 : 1 ≤ urgency) (hu2 : urgency ≤ 10)
    (hi1 : 1 ≤ impact) (hi2 : impact ≤ 10) :
    1 ≤ (evaluate adjustments task category urgency impact blocked_count).level
      ∧ (evaluate adjustments task category urgency impact blocked_count).level ≤ 10
      ∧ (evaluate adjustments task category urgency impact blocked_count).level
        = specLevel adjustments task urgency impact blocked_count := by
  have hlevel : (evaluate adjustments task category urgency impact blocked_count).level
      = max 1 (min 10 (pyRound ((matrixGet task : Rat)
        + ((urgency : Rat) - 5) * (3/10) + ((impact : Rat) - 5) * (1/5)
        + (blocked_count : Rat) * (1/2) + adjGet adjustments task))) := by
    simp [evaluate, mkPriority, post_init]
  refine ⟨?_, ?_, ?_⟩
  · rw [hlevel]; exact le_max_left 1 _
  · rw [hlevel]
    exact max_le (by norm_num) (min_le_left 10 _)
  · rw [hlevel, specLevel]
    rw [clamp_pyRound]
    congr 2
    ring

/-- Members of an upserted adjustment table carry either the new value
or a value already present. -/
theorem mem_upsertAdj {task : String} {v : Rat}
    {adjustments : List (String × Rat)} {p : String × Rat}
    (hp : p ∈ upsertAdj task v adjustments) :
    p.2 = v ∨ ∃ q ∈ adjustments, p.2 = q.2 := by
  unfold upsertAdj at hp
  split at hp
  · obtain ⟨q, hq, rfl⟩ := List.mem_map.mp hp
    by_cases h : q.1 = task
    · exact Or.inl (by rw [if_pos h])
    · exact Or.inr ⟨q, hq, by rw [if_neg h]⟩
  · rcases List.mem_append.mp hp with h | h
    · exact Or.inr ⟨p, h, rfl⟩
    · simp only [List.mem_singleton] at h
      rw [h]
      exact Or.inl rfl

theorem record_feedback_bound (st : EvalState)
    (hinv : ∀ p ∈ st.priority_adjustments, -1 ≤ p.2 ∧ p.2 ≤ 1)
    (nowIso task : String) (priority_level : Int) (decision_type user_action : String) :
    ∀ p ∈ (record_feedback st nowIso task priority_level
        decision_type user_action).1.priority_adjustments,
      -1 ≤ p.2 ∧ p.2 ≤ 1 := by
  intro p hp
  simp only [record_feedback] at hp
  rcases mem_upsertAdj hp with h | ⟨q, hq, h⟩
  · rw [h]
    constructor
    · exact le_max_left (-1) _
    · exact max_le (by norm_num) (min_le_left 1 _)
  · rw [h]
    exact hinv q hq

theorem runFeedback_bound (calls : List FeedbackCall) :
    ∀ st : EvalState, (∀ p ∈ st.priority_adjustments, -1 ≤ p.2 ∧ p.2 ≤ 1) →
      ∀ p ∈ (runFeedback st calls).priority_adjustments, -1 ≤ p.2 ∧ p.2 ≤ 1 := by
  induction calls with
  | nil => intro st hinv; exact hinv
  | cons c rest ih =>
    intro st hinv
    exact ih _ (record_feedback_bound st hinv c.nowIso c.task c.priority_level
      c.decision_type c.user_action)

/-- Three consecutive `ignored` feedbacks on the task `cleanup_task`. -/
def ignoredCall : FeedbackCall :=
  { nowIso := "t0", task := "cleanup_task", priority_level := 5
    decision_type := "suggest", user_action := "ignored" }

/-- Claim C7: adjustment bound. Starting from a fresh evaluator (empty
adjustment table), after any sequence of `record_feedback` calls every
stored adjustment lies in `[-1, 1]`; and three consecutive `ignored`
feedbacks on a fresh task leave its adjustment clamped at exactly `-1`
(the raw sum would be `-1.5`). -/
theorem C7_adjustment_bound (calls : List FeedbackCall) (task : String)
    (pq : String × Rat)
    (h : (runFeedback { } calls).priority_adjustments.find?
        (fun p => p.1 = task) = some pq) :
    (-1 ≤ pq.2 ∧ pq.2 ≤ 1)
      ∧ (runFeedback { } [ignoredCall, ignoredCall, ignoredCall]).priority_adjustments
        = [("cleanup_task", -1)] := by
  constructor
  · exact runFeedback_bound calls { } (by simp) pq (List.mem_of_find?_eq_some h)
  · simp only [runFeedback, List.foldl_cons, List.foldl_nil, record_feedback,
      ignoredCall, adjGet, upsertAdj]
    norm_num [min_def, max_def,
      show ("ignored" = "rejected") = False by simp,
      show ("ignored" = "accepted") = False by simp]

/-- Witness for C7 at a concrete input: after a single `ignored`
feedback the stored adjustment is `-0.5`, within bounds, and the
three-`ignored` scenario clamps at `-1`. -/
theorem C7_adjustment_bound_witness :
    ((-1 : Rat) ≤ (("cleanup_task", (-1 : Rat)/2) : String × Rat).2
        ∧ (("cleanup_task", (-1 : Rat)/2) : String × Rat).2 ≤ 1)
      ∧ (runFeedback { } [ignoredCall, ignoredCall, ignoredCall]).priority_adjustments
        = [("cleanup_task", -1)] :=
  C7_adjustment_bound [ignoredCall] "cleanup_task" ("cleanup_task", (-1 : Rat)/2)
    (by
      simp only [runFeedback, List.foldl_cons, List.foldl_nil, record_feedback,
        ignoredCall, adjGet, upsertAdj, List.find?]
      norm_num [min_def, max_def,
        show ("ignored" = "rejected") = False by simp,
        show ("ignored" = "accepted") = False by simp])

/-- Claim C8: `decision_type` is a pure function of `level`. The value
passed to the constructor is irrelevant (`__post_init__` overwrites
it); levels 1-4 give Autonomous, 5-9 Suggest, 10 Interrupt; and the
scenario `evaluate("security_alert", "security", 9, 10, 0)` yields
level 10 with decision type Interrupt. -/
theorem C8_decision_type_pure_function_of_level
    (task : String) (level : Int) (category : String) (confidence : Rat)
    (rationale : String) (dt1 dt2 : DecisionType) :
    mkPriority task level category confidence rationale dt1
        = mkPriority task level category confidence rationale dt2
      ∧ (1 ≤ level → level ≤ 4 →
        (mkPriority task level category confidence rationale dt1).decision_type
          = DecisionType.autonomous)
      ∧ (5 ≤ level → level ≤ 9 →
        (mkPriority task level category confidence rationale dt1).decision_type
          = DecisionType.suggest)
      ∧ (level = 10 →
        (mkPriority task level category confidence rationale dt1).decision_type
          = DecisionType.interrupt)
      ∧ (evaluate [] "security_alert" "security" 9 10 0).level = 10
      ∧ (evaluate [] "security_alert" "security" 9 10 0).decision_type
        = DecisionType.interrupt := by
  have hm : matrixGet "security_alert" = 10 := by
    simp [matrixGet, PRIORITY_MATRIX, List.find?]
  have hfloor : ⌊(61/5 : ℚ)⌋ = 12 := by
    rw [show (61/5 : ℚ) = ((61 : ℤ) : ℚ) / ((5 : ℕ) : ℚ) by norm_num,
      Rat.floor_intCast_div_natCast]
    decide
  have hlevel : (evaluate [] "security_alert" "security" 9 10 0).level = 10 := by
    simp only [evaluate, mkPriority, post_init, hm, adjGet, List.find?]
    norm_num
    rw [pyRound, hfloor]
    norm_num [min_def, max_def]
  have hdt : (evaluate [] "security_alert" "security" 9 10 0).decision_type
      = (if (evaluate [] "security_alert" "security" 9 10 0).level ≤ 4
          then DecisionType.autonomous
          else if (evaluate [] "security_alert" "security" 9 10 0).level ≤ 9
          then DecisionType.suggest else DecisionType.interrupt) := by
    simp [evaluate, mkPriority, post_init]
  refine ⟨by simp [mkPriority, post_init], ?_, ?_, ?_, hlevel, ?_⟩
  · intro h1 h4
    simp [mkPriority, post_init, if_pos h4]
  · intro h5 h9
    have h4 : ¬ level ≤ 4 := by omega
    simp [mkPriority, post_init, if_neg h4, if_pos h9]
  · intro h10
    have h4 : ¬ level ≤ 4 := by omega
    have h9 : ¬ level ≤ 9 := by omega
    simp [mkPriority, post_init, if_neg h4, if_neg h9]
  · rw [hdt, hlevel]
    norm_num

/-- Witness for C8 at concrete inputs: a level-3 priority is Autonomous
no matter which decision type the constructor received. -/
theorem C8_decision_type_pure_function_of_level_witness :
    mkPriority "log_rotation" 3 "maintenance" 1 "r" DecisionType.suggest
        = mkPriority "log_rotation" 3 "maintenance" 1 "r" DecisionType.interrupt
      ∧ (mkPriority "log_rotation" 3 "maintenance" 1 "r" DecisionType.suggest).decision_type
        = DecisionType.autonomous :=
  ⟨(C8_decision_type_pure_function_of_level "log_rotation" 3 "maintenance" 1 "r"
      DecisionType.suggest DecisionType.interrupt).1,
   (C8_decision_type_pure_function_of_level "log_rotation" 3 "maintenance" 1 "r"
      DecisionType.suggest DecisionType.interrupt).2.1 (by norm_num) (by norm_num)⟩

/-- Witness for C6 at a concrete input: the `security_alert` scenario
with urgency 9 and impact 10. -/
theorem C6_evaluate_level_bounds_and_formula_witness :
    1 ≤ (evaluate [] "security_alert" "security" 9 10 0).level
      ∧ (evaluate [] "security_alert" "security" 9 10 0).level ≤ 10
      ∧ (evaluate [] "security_alert" "security" 9 10 0).level
        = specLevel [] "security_alert" 9 10 0 :=
  C6_evaluate_level_bounds_and_formula [] "security_alert" "security" 9 10 0
    (by norm_num) (by norm_num) (by norm_num) (by norm_num)

end Jarvis
